import Mathlib

set_option maxHeartbeats 1000000

/-!
Shallow embedding of `src/main.py` (a simpy discrete-event simulation of a
container terminal).  The simpy substrate is modelled exactly at the level the
program exercises it:

* the event queue is a list kept sorted by the key `(time, priority, sequence)`
  (simpy's heap with unique event ids gives the same total order);
* `env.process(...)` schedules an `Initialize` event at the current time with
  priority `URGENT = 0`; timeouts and triggered events use `NORMAL = 1`;
* when a process generator ends, its process event is scheduled (priority 1) at
  the current time, which is how a parent waiting on `yield env.process(...)`
  resumes;
* `simpy.Resource.request()` appends the request to `put_queue` and then runs
  `_trigger_put`, which examines only the head of `put_queue` and grants it when
  `len(users) < capacity` (scheduling the request event at the current time);
  `release()` removes the grant from `users` immediately and schedules the
  release event, whose processing runs `_trigger_put` again;
* `random.expovariate` results are treated as an input stream `draws : ℕ → Time`
  (the i-th call returns `draws i`).

Each segment of a Python generator between two suspension points becomes one
branch of the event handler `handle`.  The field `berthAt` is a ghost/history
variable recording the time at which a vessel was granted its berth; it has no
influence on the behaviour of the model.
-/

namespace Shipment

/-- Simulated time (`env.now`).  All timing constants of `src/main.py` are
integers; the only non-integral times Python could produce are the
`random.expovariate` samples, which enter this model as an arbitrary input
stream anyway, so simulated instants are modelled as integers (every claim
concerns orderings — broken by priority and sequence number at equal times —
and exact sums, neither of which depends on the density of the time domain). -/
abbrev Time := ℤ

-- Simulation parameters, src/main.py lines 5-13.
def SIMULATION_TIME : Time := 720
def NUM_BERTHS : ℕ := 2
def NUM_QUAY_CRANES : ℕ := 2
def NUM_TRUCKS : ℕ := 3
def NUM_VESSEL : ℕ := 4
def AVERAGE_VESSEL_ARRIVAL_INTERVAL : Time := 5 * 60
def CONTAINERS_PER_VESSEL : ℕ := 150
def CRANE_CONTAINER_TIME : Time := 3
def TRUCK_TRANSPORT_TIME : Time := 6

/-- The module-level constants of `src/main.py`, gathered so that runs can also
be considered at other parameter values (e.g. the spec's concrete scenarios). -/
structure Config where
  simulationTime : Time
  numBerths : ℕ
  numQuayCranes : ℕ
  numTrucks : ℕ
  numVessel : ℕ
  averageVesselArrivalInterval : Time
  containersPerVessel : ℕ
  craneContainerTime : Time
  truckTransportTime : Time

/-- The configuration actually written in `src/main.py`. -/
def defaultConfig : Config :=
  { simulationTime := SIMULATION_TIME
    numBerths := NUM_BERTHS
    numQuayCranes := NUM_QUAY_CRANES
    numTrucks := NUM_TRUCKS
    numVessel := NUM_VESSEL
    averageVesselArrivalInterval := AVERAGE_VESSEL_ARRIVAL_INTERVAL
    containersPerVessel := CONTAINERS_PER_VESSEL
    craneContainerTime := CRANE_CONTAINER_TIME
    truckTransportTime := TRUCK_TRANSPORT_TIME }

/-- One line written by `Terminal.log`.  Vessels `V{v}`, cranes `QC{c}` and
trucks `T{t}` are identified by their numeric index. -/
inductive Msg where
  | arrives (v : ℕ)             -- "Vessel V{v} arrives at the terminal."
  | berths (v : ℕ)              -- "Vessel V{v} berths."
  | craneStart (c v : ℕ)        -- "Quay Crane QC{c} starts loading container from Vessel V{v}."
  | craneFinish (c v : ℕ)       -- "Quay Crane QC{c} loads container from Vessel V{v}."
  | leaves (v : ℕ)              -- "Vessel V{v} leaves the terminal."
  | truckStart (t v : ℕ)        -- "Truck T{t} starts transporting container from Vessel V{v} to yard."
  | truckDeliver (t v : ℕ)      -- "Truck T{t} delivers container from Vessel V{v} to yard."
deriving DecidableEq, Repr

/-- The vessel index a log line speaks about. -/
def Msg.vesselOf : Msg → ℕ
  | .arrives v => v
  | .berths v => v
  | .craneStart _ v => v
  | .craneFinish _ v => v
  | .leaves v => v
  | .truckStart _ v => v
  | .truckDeliver _ v => v

/-- Pending wake-ups: each constructor names the generator segment that runs
when the event is processed.

* `initGen` / `initVessel` / `initCrane` / `initTransport`: simpy `Initialize`
  events created by `env.process` on `vessel_on_the_terminal`, `Vessel.arrive`,
  `QuayCrane.load_container` and `Truck.transport_container`;
* `genTimeout` / `craneTimeout` / `transportTimeout`: the `env.timeout(...)`
  suspensions of those generators;
* `berthReady v`: vessel `v`'s granted berth request event
  (`yield berth_request` resumes);
* `releaseTrigger`: the processing of a `Resource.release` event, which runs
  `_trigger_put` on the berth queue;
* `genDone` / `craneDone v` / `vesselDone v` / `transportDone`: the process
  event scheduled when the corresponding generator returns (`craneDone v`
  resumes vessel `v`'s `yield env.process(crane.load_container(self))`). -/
inductive Act where
  | initGen
  | genTimeout
  | genDone
  | initVessel (v : ℕ)
  | berthReady (v : ℕ)
  | releaseTrigger
  | initCrane (v : ℕ)
  | craneTimeout (v : ℕ)
  | craneDone (v : ℕ)
  | vesselDone (v : ℕ)
  | initTransport (t v : ℕ)
  | transportTimeout (t v : ℕ)
  | transportDone (t v : ℕ)
deriving DecidableEq, Repr

/-- The vessel index an event belongs to, if any. -/
def Act.vesselOf : Act → Option ℕ
  | .initVessel v => some v
  | .berthReady v => some v
  | .initCrane v => some v
  | .craneTimeout v => some v
  | .craneDone v => some v
  | .vesselDone v => some v
  | .initTransport _ v => some v
  | .transportTimeout _ v => some v
  | .transportDone _ v => some v
  | _ => none

/-- `ctrl v a` holds when `a` is the unique control point of the live generator
of vessel `v` (its `Vessel.arrive` resumption or a crane subprocess serving
it). -/
def ctrl (v : ℕ) : Act → Bool
  | .initVessel w => w == v
  | .berthReady w => w == v
  | .initCrane w => w == v
  | .craneTimeout w => w == v
  | .craneDone w => w == v
  | _ => false

/-- A scheduled event: simpy heap entry `(time, priority, eid, event)`. -/
structure Ev where
  time : Time
  prio : ℕ
  seq : ℕ
  act : Act
deriving DecidableEq, Repr

/-- Strict order on heap keys `(time, priority, sequence)`. -/
def evLt (a b : Ev) : Bool :=
  decide (a.time < b.time) ||
    (a.time == b.time &&
      (decide (a.prio < b.prio) || (a.prio == b.prio && decide (a.seq < b.seq))))

/-- Insert an event into the (sorted) pending-event list. -/
def insertEv (e : Ev) : List Ev → List Ev
  | [] => [e]
  | x :: xs => if evLt e x then e :: x :: xs else x :: insertEv e xs

/-- The whole simulation state: clock, event queue, log, the berth
`simpy.Resource` (`berthUsers` = `users`, `berthWait` = `put_queue`, both
holding vessel indices since each vessel makes exactly one request), the crane
pool list, and each vessel's `containers_left`.  `holding` is the ghost record
of which crane each currently-unloading vessel popped from the pool (in Python
this is the local variable `crane` of `Vessel.arrive`); `berthAt` is the ghost
record of the grant time; `genI` is the loop counter of
`vessel_on_the_terminal`; `err` is set when `quay_cranes.pop(0)` is attempted
on an empty list (Python would raise `IndexError` and abort the run). -/
structure Sim where
  now : Time
  nextSeq : ℕ
  queue : List Ev
  log : List (Time × Msg)
  berthUsers : List ℕ
  berthWait : List ℕ
  cranePool : List ℕ
  holding : List (ℕ × ℕ)
  containers : ℕ → ℤ
  berthAt : ℕ → Time
  genI : ℕ
  err : Bool

/-- `env.schedule`: enqueue `a` after `delay` with priority `prio`, consuming
one event id. -/
def sched (s : Sim) (delay : Time) (prio : ℕ) (a : Act) : Sim :=
  { s with queue := insertEv ⟨s.now + delay, prio, s.nextSeq, a⟩ s.queue
           nextSeq := s.nextSeq + 1 }

/-- `Terminal.log`: append a timestamped line. -/
def logMsg (s : Sim) (m : Msg) : Sim :=
  { s with log := s.log ++ [(s.now, m)] }

/-- `simpy` `Resource._trigger_put` for the berths: look at the head of
`put_queue` only; if there is room, move it to `users` and schedule its request
event at the current time. -/
def triggerPut (cfg : Config) (s : Sim) : Sim :=
  match s.berthWait with
  | [] => s
  | v :: rest =>
      if s.berthUsers.length < cfg.numBerths then
        sched { s with berthUsers := s.berthUsers ++ [v], berthWait := rest } 0 1
          (.berthReady v)
      else s

/-- `self.terminal.berths.request()`: append to `put_queue`, then
`_trigger_put`. -/
def berthRequest (cfg : Config) (s : Sim) (v : ℕ) : Sim :=
  triggerPut cfg { s with berthWait := s.berthWait ++ [v] }

/-- `Vessel.__init__`: set `containers_left = CONTAINERS_PER_VESSEL` and start
`arrive` via `env.process` (an `Initialize` event, priority 0, zero delay). -/
def vesselSpawn (cfg : Config) (s : Sim) (v : ℕ) : Sim :=
  sched
    { s with containers := fun w => if w = v then (cfg.containersPerVessel : ℤ) else s.containers w }
    0 0 (.initVessel v)

/-- The crane vessel `v` is currently holding (the local `crane` variable). -/
def craneOf (s : Sim) (v : ℕ) : ℕ := (s.holding.lookup v).getD 0

/-- Tail of `Vessel.arrive` once `containers_left` is exhausted: return the
crane to the pool, `berths.release(berth_request)` (remove from `users` at
once, schedule the release event), log the departure, and end the generator
(scheduling the vessel's process event). -/
def vesselFinish (_cfg : Config) (s : Sim) (v : ℕ) : Sim :=
  let c := craneOf s v
  let s1 := { s with cranePool := s.cranePool ++ [c]
                     holding := s.holding.filter (fun p => p.1 ≠ v) }
  let s2 := sched { s1 with berthUsers := s1.berthUsers.erase v } 0 1 .releaseTrigger
  sched (logMsg s2 (.leaves v)) 0 1 (.vesselDone v)

/-- Process one event: each branch is the generator segment of `src/main.py`
that the event resumes, run to its next suspension point. -/
def handle (cfg : Config) (draws : ℕ → Time) (s : Sim) : Act → Sim
  | .initGen =>
      -- vessel_on_the_terminal advances to its first yield (or returns at once
      -- when NUM_VESSEL = 0, since range(1, 1) is empty).
      if cfg.numVessel = 0 then sched s 0 1 .genDone
      else sched { s with genI := 1 } (draws 0) 1 .genTimeout
  | .genTimeout =>
      -- iteration i of the for-loop, resumed after its arrival timeout:
      -- spawn V{i} when len(terminal.berths.queue) < NUM_BERTHS, then either
      -- yield the next exponential timeout or fall off the loop.
      let i := s.genI
      let s1 := if s.berthWait.length < cfg.numBerths then vesselSpawn cfg s i else s
      let s2 := { s1 with genI := i + 1 }
      if i < cfg.numVessel then sched s2 (draws i) 1 .genTimeout
      else sched s2 0 1 .genDone
  | .genDone => s
  | .initVessel v =>
      -- Vessel.arrive up to `yield berth_request`.
      berthRequest cfg (logMsg s (.arrives v)) v
  | .berthReady v =>
      -- resumed past `yield berth_request`: log, pop a crane (IndexError on an
      -- empty pool), and start the first load_container subprocess -- or, were
      -- CONTAINERS_PER_VESSEL zero, finish immediately.
      let s1 := logMsg { s with berthAt := fun w => if w = v then s.now else s.berthAt w }
        (.berths v)
      match s1.cranePool with
      | [] => { s1 with err := true }
      | c :: pool =>
          let s2 := { s1 with cranePool := pool, holding := (v, c) :: s1.holding }
          if 0 < s2.containers v then sched s2 0 0 (.initCrane v)
          else vesselFinish cfg s2 v
  | .initCrane v =>
      -- QuayCrane.load_container up to `yield env.timeout(CRANE_CONTAINER_TIME)`.
      sched (logMsg s (.craneStart (craneOf s v) v)) cfg.craneContainerTime 1
        (.craneTimeout v)
  | .craneTimeout v =>
      -- the timeout elapsed: decrement containers_left, log, generator returns.
      let s1 := { s with containers := fun w => if w = v then s.containers v - 1 else s.containers w }
      sched (logMsg s1 (.craneFinish (craneOf s1 v) v)) 0 1 (.craneDone v)
  | .craneDone v =>
      -- Vessel.arrive resumes at the `while self.containers_left > 0` test.
      if 0 < s.containers v then sched s 0 0 (.initCrane v)
      else vesselFinish cfg s v
  | .releaseTrigger => triggerPut cfg s
  | .vesselDone _ => s
  | .initTransport t v =>
      -- Truck.transport_container up to `yield env.timeout(TRUCK_TRANSPORT_TIME)`
      -- (never scheduled by any live control path).
      sched (logMsg s (.truckStart t v)) cfg.truckTransportTime 1
        (.transportTimeout t v)
  | .transportTimeout t v =>
      sched (logMsg s (.truckDeliver t v)) 0 1 (.transportDone t v)
  | .transportDone _ _ => s

/-- One scheduler step of `env.run(until=...)`: pop the minimal event; process
it when its time is below the horizon (the stop event scheduled at `until` has
priority `URGENT` and an earlier event id, so it fires first otherwise).  A
state whose pop raised `IndexError` (`err`) is stuck. -/
def step (cfg : Config) (draws : ℕ → Time) (s : Sim) : Sim :=
  if s.err then s
  else
    match s.queue with
    | [] => s
    | e :: rest =>
        if e.time < cfg.simulationTime then
          handle cfg draws { s with now := e.time, queue := rest } e.act
        else s

/-- The state after `env.process(vessel_on_the_terminal(env, terminal))`:
clock 0, the generator's `Initialize` event pending, cranes `QC1..QCn` in the
pool. -/
def initSim (cfg : Config) : Sim :=
  { now := 0
    nextSeq := 1
    queue := [⟨0, 0, 0, .initGen⟩]
    log := []
    berthUsers := []
    berthWait := []
    cranePool := List.range' 1 cfg.numQuayCranes
    holding := []
    containers := fun _ => 0
    berthAt := fun _ => 0
    genI := 0
    err := false }

/-- The whole program: `n` scheduler steps from the initial state. -/
def run (cfg : Config) (draws : ℕ → Time) (n : ℕ) : Sim :=
  (step cfg draws)^[n] (initSim cfg)

/-! ### Invariant infrastructure -/

/-- No line of the log `L` carries the message `m`. -/
def NoMsg (L : List (Time × Msg)) (m : Msg) : Prop := ∀ p ∈ L, p.2 ≠ m

/-- Number of live control points of vessel `v`: pending events of its
generators plus occurrences in the berth wait queue. -/
def tok (s : Sim) (v : ℕ) : ℕ :=
  s.queue.countP (fun e => ctrl v e.act) + s.berthWait.count v

/-- Control points of the arrival generator. -/
def isGenCtrl : Act → Bool
  | .initGen => true
  | .genTimeout => true
  | _ => false

/-- The simulated time at which the next `load_container` subprocess of vessel
`v` starts (given its berth-grant time and how many containers are left). -/
def slotTime (cfg : Config) (s : Sim) (v : ℕ) : Time :=
  s.berthAt v + ((cfg.containersPerVessel : ℤ) - s.containers v) * cfg.craneContainerTime

theorem mem_insertEv {x e : Ev} {l : List Ev} : x ∈ insertEv e l ↔ x = e ∨ x ∈ l := by
  induction l with
  | nil => simp [insertEv]
  | cons y ys ih =>
      simp only [insertEv]
      split
      · simp
      · simp only [List.mem_cons, ih]
        tauto

theorem countP_insertEv (p : Ev → Bool) (e : Ev) (l : List Ev) :
    (insertEv e l).countP p = l.countP p + (if p e then 1 else 0) := by
  induction l with
  | nil => simp [insertEv, List.countP_cons]
  | cons y ys ih =>
      simp only [insertEv]
      split
      · simp only [List.countP_cons]
      · simp only [List.countP_cons, ih]
        omega

theorem forall_mem_insertEv {P : Ev → Prop} {e : Ev} {l : List Ev} :
    (∀ x ∈ insertEv e l, P x) ↔ P e ∧ ∀ x ∈ l, P x := by
  constructor
  · intro h
    exact ⟨h e (mem_insertEv.mpr (Or.inl rfl)), fun x hx => h x (mem_insertEv.mpr (Or.inr hx))⟩
  · rintro ⟨he, hl⟩ x hx
    rcases mem_insertEv.mp hx with rfl | hx
    · exact he
    · exact hl x hx

theorem length_filter_key {holding : List (ℕ × ℕ)} {v : ℕ}
    (hnd : (holding.map Prod.fst).Nodup) (hv : v ∈ holding.map Prod.fst) :
    (holding.filter (fun p => p.1 ≠ v)).length + 1 = holding.length := by
  induction holding with
  | nil => simp at hv
  | cons q qs ih =>
      simp only [List.map_cons, List.nodup_cons] at hnd
      rcases List.mem_cons.mp hv with h1 | h1
      · subst h1
        have hall : qs.filter (fun p => p.1 ≠ q.1) = qs := by
          apply List.filter_eq_self.mpr
          intro p hp
          simp only [decide_eq_true_eq]
          intro hc
          exact hnd.1 (hc ▸ List.mem_map_of_mem Prod.fst hp)
        rw [List.filter_cons]
        simp only [ne_eq] at hall ⊢
        simp only [decide_eq_true_eq, not_true_eq_false, decide_False, if_false, hall,
          List.length_cons]
        simp
      · have hne : q.1 ≠ v := fun hc => hnd.1 (by rw [hc]; exact h1)
        have hih := ih hnd.2 h1
        rw [List.filter_cons]
        simp only [ne_eq] at hih ⊢
        simp only [decide_eq_true_eq, hne, not_false_eq_true, decide_True, if_true,
          List.length_cons]
        omega

theorem mem_keys_filter {holding : List (ℕ × ℕ)} {v w : ℕ} :
    w ∈ ((holding.filter (fun p => p.1 ≠ v)).map Prod.fst) ↔
      w ∈ holding.map Prod.fst ∧ w ≠ v := by
  simp only [List.mem_map, List.mem_filter, decide_eq_true_eq]
  constructor
  · rintro ⟨p, ⟨hp, hpv⟩, rfl⟩
    exact ⟨⟨p, hp, rfl⟩, hpv⟩
  · rintro ⟨⟨p, hp, rfl⟩, hwv⟩
    exact ⟨p, ⟨hp, hwv⟩, rfl⟩

@[simp] theorem sched_now (s : Sim) (d : Time) (p : ℕ) (a : Act) : (sched s d p a).now = s.now := rfl

@[simp] theorem sched_log (s : Sim) (d : Time) (p : ℕ) (a : Act) : (sched s d p a).log = s.log := rfl

@[simp] theorem sched_berthUsers (s : Sim) (d : Time) (p : ℕ) (a : Act) : (sched s d p a).berthUsers = s.berthUsers := rfl

@[simp] theorem sched_berthWait (s : Sim) (d : Time) (p : ℕ) (a : Act) : (sched s d p a).berthWait = s.berthWait := rfl

@[simp] theorem sched_cranePool (s : Sim) (d : Time) (p : ℕ) (a : Act) : (sched s d p a).cranePool = s.cranePool := rfl

@[simp] theorem sched_holding (s : Sim) (d : Time) (p : ℕ) (a : Act) : (sched s d p a).holding = s.holding := rfl

@[simp] theorem sched_containers (s : Sim) (d : Time) (p : ℕ) (a : Act) : (sched s d p a).containers = s.containers := rfl

@[simp] theorem sched_berthAt (s : Sim) (d : Time) (p : ℕ) (a : Act) : (sched s d p a).berthAt = s.berthAt := rfl

@[simp] theorem sched_genI (s : Sim) (d : Time) (p : ℕ) (a : Act) : (sched s d p a).genI = s.genI := rfl

@[simp] theorem sched_err (s : Sim) (d : Time) (p : ℕ) (a : Act) : (sched s d p a).err = s.err := rfl

@[simp] theorem sched_queue (s : Sim) (d : Time) (p : ℕ) (a : Act) :
    (sched s d p a).queue = insertEv ⟨s.now + d, p, s.nextSeq, a⟩ s.queue := rfl

@[simp] theorem logMsg_now (s : Sim) (m : Msg) : (logMsg s m).now = s.now := rfl

@[simp] theorem logMsg_queue (s : Sim) (m : Msg) : (logMsg s m).queue = s.queue := rfl

@[simp] theorem logMsg_nextSeq (s : Sim) (m : Msg) : (logMsg s m).nextSeq = s.nextSeq := rfl

@[simp] theorem logMsg_berthUsers (s : Sim) (m : Msg) : (logMsg s m).berthUsers = s.berthUsers := rfl

@[simp] theorem logMsg_berthWait (s : Sim) (m : Msg) : (logMsg s m).berthWait = s.berthWait := rfl

@[simp] theorem logMsg_cranePool (s : Sim) (m : Msg) : (logMsg s m).cranePool = s.cranePool := rfl

@[simp] theorem logMsg_holding (s : Sim) (m : Msg) : (logMsg s m).holding = s.holding := rfl

@[simp] theorem logMsg_containers (s : Sim) (m : Msg) : (logMsg s m).containers = s.containers := rfl

@[simp] theorem logMsg_berthAt (s : Sim) (m : Msg) : (logMsg s m).berthAt = s.berthAt := rfl

@[simp] theorem logMsg_genI (s : Sim) (m : Msg) : (logMsg s m).genI = s.genI := rfl

@[simp] theorem logMsg_err (s : Sim) (m : Msg) : (logMsg s m).err = s.err := rfl

@[simp] theorem logMsg_log (s : Sim) (m : Msg) : (logMsg s m).log = s.log ++ [(s.now, m)] := rfl

/-- The inductive invariant of reachable simulation states.  `tok`-uniqueness
says each vessel has at most one live control point; the `ev...` clauses
describe what must be true of a vessel for each kind of pending event; the
`slotTime` equations pin the simulated times of the crane service chain to the
berth-grant time. -/
structure Inv (cfg : Config) (s : Sim) : Prop where
  waitNodup : s.berthWait.Nodup
  keysNodup : (s.holding.map Prod.fst).Nodup
  keysSub : ∀ v ∈ s.holding.map Prod.fst, v ∈ s.berthUsers
  waitUsers : ∀ v ∈ s.berthWait, v ∉ s.berthUsers
  usersLe : s.berthUsers.length ≤ cfg.numBerths
  craneCount : s.cranePool.length + s.holding.length = cfg.numQuayCranes
  nonneg : ∀ v, 0 ≤ s.containers v
  tokLe : ∀ v, tok s v ≤ 1
  evBerthReady : ∀ e ∈ s.queue, ∀ v, e.act = .berthReady v →
    v ∈ s.berthUsers ∧ v ∉ s.holding.map Prod.fst ∧
    s.containers v = (cfg.containersPerVessel : ℤ) ∧
    NoMsg s.log (.berths v) ∧ NoMsg s.log (.leaves v)
  evInitVessel : ∀ e ∈ s.queue, ∀ v, e.act = .initVessel v →
    v ∉ s.berthUsers ∧ v ∉ s.berthWait ∧
    s.containers v = (cfg.containersPerVessel : ℤ) ∧
    NoMsg s.log (.berths v) ∧ NoMsg s.log (.leaves v)
  evInitCrane : ∀ e ∈ s.queue, ∀ v, e.act = .initCrane v →
    v ∈ s.holding.map Prod.fst ∧ 1 ≤ s.containers v ∧ e.time = slotTime cfg s v
  evCraneTimeout : ∀ e ∈ s.queue, ∀ v, e.act = .craneTimeout v →
    v ∈ s.holding.map Prod.fst ∧ 1 ≤ s.containers v ∧
    e.time = slotTime cfg s v + cfg.craneContainerTime
  evCraneDone : ∀ e ∈ s.queue, ∀ v, e.act = .craneDone v →
    v ∈ s.holding.map Prod.fst ∧ e.time = slotTime cfg s v
  noTransport : ∀ e ∈ s.queue, ∀ t v,
    e.act ≠ .initTransport t v ∧ e.act ≠ .transportTimeout t v ∧ e.act ≠ .transportDone t v
  waitState : ∀ v ∈ s.berthWait,
    s.containers v = (cfg.containersPerVessel : ℤ) ∧
    NoMsg s.log (.berths v) ∧ NoMsg s.log (.leaves v)
  logBerths : ∀ p ∈ s.log, ∀ v, p.2 = .berths v → p.1 = s.berthAt v
  logLeaves : ∀ p ∈ s.log, ∀ v, p.2 = .leaves v →
    s.containers v = 0 ∧
    p.1 = s.berthAt v + (cfg.containersPerVessel : ℤ) * cfg.craneContainerTime
  noTruckLog : ∀ p ∈ s.log, ∀ t v, p.2 ≠ .truckStart t v ∧ p.2 ≠ .truckDeliver t v
  fresh : ∀ v, s.genI ≤ v →
    v ∉ s.berthUsers ∧ v ∉ s.berthWait ∧ v ∉ s.holding.map Prod.fst ∧
    (∀ e ∈ s.queue, e.act.vesselOf ≠ some v) ∧ (∀ p ∈ s.log, p.2.vesselOf ≠ v)
  genTok : s.queue.countP (fun e => isGenCtrl e.act) ≤ 1
  genZero : ∀ e ∈ s.queue, e.act = .initGen → s.genI = 0

theorem inv_init (cfg : Config) : Inv cfg (initSim cfg) := by
  refine ⟨?_, ?_, ?_, ?_, ?_, ?_, ?_, ?_, ?_, ?_, ?_, ?_, ?_, ?_, ?_, ?_, ?_, ?_, ?_, ?_, ?_⟩ <;>
    simp [initSim, tok, ctrl, isGenCtrl, NoMsg, List.countP_cons, Act.vesselOf]

theorem one_le_countP_of_mem {p : Ev → Bool} {x : Ev} {l : List Ev} (hx : x ∈ l)
    (hp : p x = true) : 1 ≤ l.countP p :=
  List.countP_pos.mpr ⟨x, hx, hp⟩

/-- Popping the head event (and moving the clock) preserves the invariant. -/
theorem inv_pop {cfg : Config} {s : Sim} {e : Ev} {rest : List Ev} (t : Time)
    (h : Inv cfg s) (hq : s.queue = e :: rest) :
    Inv cfg { s with now := t, queue := rest } := by
  have hsub : ∀ x ∈ rest, x ∈ s.queue := by
    intro x hx; rw [hq]; exact List.mem_cons_of_mem _ hx
  refine ⟨h.waitNodup, h.keysNodup, h.keysSub, h.waitUsers, h.usersLe, h.craneCount, h.nonneg,
    ?_, ?_, ?_, ?_, ?_, ?_, ?_, h.waitState, h.logBerths, h.logLeaves, h.noTruckLog, ?_, ?_, ?_⟩
  · intro v
    have htk := h.tokLe v
    unfold tok at htk ⊢
    rw [hq, List.countP_cons] at htk
    dsimp only
    omega
  · intro x hx v hv
    exact h.evBerthReady x (hsub x hx) v hv
  · intro x hx v hv
    exact h.evInitVessel x (hsub x hx) v hv
  · intro x hx v hv
    exact h.evInitCrane x (hsub x hx) v hv
  · intro x hx v hv
    exact h.evCraneTimeout x (hsub x hx) v hv
  · intro x hx v hv
    exact h.evCraneDone x (hsub x hx) v hv
  · intro x hx tr v
    exact h.noTransport x (hsub x hx) tr v
  · intro v hv
    obtain ⟨h1, h2, h3, h4, h5⟩ := h.fresh v hv
    exact ⟨h1, h2, h3, fun x hx => h4 x (hsub x hx), h5⟩
  · have := h.genTok
    rw [hq, List.countP_cons] at this
    dsimp only
    omega
  · intro x hx hact
    exact h.genZero x (hsub x hx) hact

/-- `_trigger_put` preserves the invariant. -/
theorem inv_triggerPut {cfg : Config} {s : Sim} (h : Inv cfg s) :
    Inv cfg (triggerPut cfg s) := by
  unfold triggerPut
  split
  · exact h
  · next v rest hw =>
    split
    · next hcap =>
      have hvmem : v ∈ s.berthWait := by rw [hw]; exact List.mem_cons_self v rest
      have hvnotu : v ∉ s.berthUsers := h.waitUsers v hvmem
      have hvkeys : v ∉ s.holding.map Prod.fst := fun hk => hvnotu (h.keysSub v hk)
      obtain ⟨hwc, hwb, hwl⟩ := h.waitState v hvmem
      have hnd : v ∉ rest ∧ rest.Nodup := by
        have := h.waitNodup
        rw [hw, List.nodup_cons] at this
        exact this
      have hfreshv : v < s.genI := by
        by_contra hc
        exact (h.fresh v (Nat.le_of_not_lt hc)).2.1 hvmem
      refine ⟨hnd.2, h.keysNodup, ?_, ?_, ?_, h.craneCount, h.nonneg, ?_, ?_, ?_, ?_, ?_, ?_,
        ?_, ?_, h.logBerths, h.logLeaves, h.noTruckLog, ?_, ?_, ?_⟩
      · intro w hk
        simp only [sched_berthUsers]
        exact List.mem_append_left _ (h.keysSub w hk)
      · intro w hwr
        simp only [sched_berthUsers, List.mem_append, List.mem_singleton]
        have hwmem : w ∈ s.berthWait := by rw [hw]; exact List.mem_cons_of_mem _ hwr
        rintro (hc | rfl)
        · exact h.waitUsers w hwmem hc
        · exact hnd.1 hwr
      · simp only [sched_berthUsers, List.length_append, List.length_singleton]
        omega
      · intro w
        have htk := h.tokLe w
        unfold tok at htk ⊢
        simp only [sched_queue, sched_berthWait, countP_insertEv]
        dsimp only
        rw [hw] at htk
        by_cases hwv : w = v
        · subst hwv
          simp only [List.count_cons_self] at htk
          have hc : ctrl w (Act.berthReady w) = true := by simp [ctrl]
          rw [hc]
          simp only [if_true]
          omega
        · rw [List.count_cons_of_ne (fun hc => hwv hc)] at htk
          have hc : ctrl w (Act.berthReady v) = false := by
            simp only [ctrl, beq_eq_false_iff_ne]
            exact fun hc => hwv hc.symm
          rw [hc]
          simp only [Bool.false_eq_true, if_false]
          omega
      · intro x hx w hact
        simp only [sched_queue] at hx
        rcases mem_insertEv.mp hx with rfl | hx
        · cases hact
          refine ⟨?_, hvkeys, hwc, hwb, hwl⟩
          simp only [sched_berthUsers]
          exact List.mem_append_right _ (List.mem_singleton_self v)
        · obtain ⟨h1, h2, h3, h4, h5⟩ := h.evBerthReady x hx w hact
          exact ⟨List.mem_append_left _ h1, h2, h3, h4, h5⟩
      · intro x hx w hact
        simp only [sched_queue] at hx
        rcases mem_insertEv.mp hx with rfl | hx2
        · cases hact
        · obtain ⟨h1, h2, h3, h4, h5⟩ := h.evInitVessel x hx2 w hact
          have hctl : (fun e => ctrl w e.act) x = true := by
            show ctrl w x.act = true
            rw [hact]
            simp [ctrl]
          have hwv : w ≠ v := by
            rintro rfl
            have hc1 : 1 ≤ s.queue.countP (fun e => ctrl w e.act) :=
              one_le_countP_of_mem hx2 hctl
            have hc2 : 1 ≤ s.berthWait.count w := List.count_pos_iff.mpr hvmem
            have := h.tokLe w
            unfold tok at this
            omega
          refine ⟨?_, ?_, h3, h4, h5⟩
          · simp only [sched_berthUsers, List.mem_append, List.mem_singleton]
            rintro (hc | rfl)
            · exact h1 hc
            · exact hwv rfl
          · intro hc
            exact h2 (by rw [hw]; exact List.mem_cons_of_mem _ hc)
      · intro x hx w hact
        simp only [sched_queue] at hx
        rcases mem_insertEv.mp hx with rfl | hx
        · cases hact
        · exact h.evInitCrane x hx w hact
      · intro x hx w hact
        simp only [sched_queue] at hx
        rcases mem_insertEv.mp hx with rfl | hx
        · cases hact
        · exact h.evCraneTimeout x hx w hact
      · intro x hx w hact
        simp only [sched_queue] at hx
        rcases mem_insertEv.mp hx with rfl | hx
        · cases hact
        · exact h.evCraneDone x hx w hact
      · intro x hx tr w
        simp only [sched_queue] at hx
        rcases mem_insertEv.mp hx with rfl | hx
        · refine ⟨?_, ?_, ?_⟩ <;> intro hc <;> cases hc
        · exact h.noTransport x hx tr w
      · intro w hwr
        exact h.waitState w (by rw [hw]; exact List.mem_cons_of_mem _ hwr)
      · intro w hgw
        have hgw2 : s.genI ≤ w := hgw
        obtain ⟨h1, h2, h3, h4, h5⟩ := h.fresh w hgw2
        have hwv : w ≠ v := by
          rintro rfl
          omega
        refine ⟨?_, ?_, h3, ?_, h5⟩
        · simp only [sched_berthUsers, List.mem_append, List.mem_singleton]
          rintro (hc | rfl)
          · exact h1 hc
          · exact hwv rfl
        · intro hc
          exact h2 (by rw [hw]; exact List.mem_cons_of_mem _ hc)
        · intro x hx
          simp only [sched_queue] at hx
          rcases mem_insertEv.mp hx with rfl | hx
          · simp only [Act.vesselOf]
            intro hc
            cases hc
            exact hwv rfl
          · exact h4 x hx
      · simp only [sched_queue, countP_insertEv]
        dsimp only
        have hc : isGenCtrl (Act.berthReady v) = false := rfl
        rw [hc]
        simp only [Bool.false_eq_true, if_false, Nat.add_zero]
        exact h.genTok
      · intro x hx hact
        simp only [sched_queue] at hx
        rcases mem_insertEv.mp hx with rfl | hx
        · cases hact
        · exact h.genZero x hx hact
    · exact h

theorem noMsg_append {L : List (Time × Msg)} {m m' : Msg} {t : Time}
    (h : NoMsg L m) (hne : m' ≠ m) : NoMsg (L ++ [(t, m')]) m := by
  intro p hp
  rcases List.mem_append.mp hp with hp | hp
  · exact h p hp
  · rcases List.mem_singleton.mp hp with rfl
    exact hne

/-- The departure tail of `Vessel.arrive` preserves the invariant, given that
the departing vessel has no containers left, holds a crane, has no other live
control point, and is past its berth-grant time by the full unloading
duration. -/
theorem inv_vesselFinish {cfg : Config} {s : Sim} {v : ℕ}
    (h : Inv cfg s)
    (hkv : v ∈ s.holding.map Prod.fst)
    (hc0 : s.containers v = 0)
    (hnow : s.now = s.berthAt v + (cfg.containersPerVessel : ℤ) * cfg.craneContainerTime)
    (htok : s.queue.countP (fun e => ctrl v e.act) = 0)
    (hwv : v ∉ s.berthWait)
    (hfv : v < s.genI) :
    Inv cfg (vesselFinish cfg s v) := by
  have hq2 : (vesselFinish cfg s v).queue =
      insertEv ⟨s.now + 0, 1, s.nextSeq + 1, .vesselDone v⟩
        (insertEv ⟨s.now + 0, 1, s.nextSeq, .releaseTrigger⟩ s.queue) := rfl
  have hkeys' : ∀ w, w ∈ ((s.holding.filter (fun p => p.1 ≠ v)).map Prod.fst) ↔
      w ∈ s.holding.map Prod.fst ∧ w ≠ v := fun w => mem_keys_filter
  have hnotv : ∀ {x : Ev}, x ∈ s.queue → ∀ {w : ℕ}, ctrl w x.act = true → w ≠ v := by
    intro x hx w hcw
    rintro rfl
    have : 1 ≤ s.queue.countP (fun e => ctrl w e.act) := one_le_countP_of_mem hx hcw
    omega
  refine ⟨h.waitNodup, ?_, ?_, ?_, ?_, ?_, h.nonneg, ?_, ?_, ?_, ?_, ?_, ?_, ?_, ?_, ?_, ?_,
    ?_, ?_, ?_, ?_⟩
  · show ((s.holding.filter (fun p => p.1 ≠ v)).map Prod.fst).Nodup
    exact h.keysNodup.sublist ((List.filter_sublist _).map Prod.fst)
  · show ∀ w ∈ (s.holding.filter (fun p => p.1 ≠ v)).map Prod.fst, w ∈ s.berthUsers.erase v
    intro w hk
    obtain ⟨hk1, hk2⟩ := (hkeys' w).mp hk
    exact (List.mem_erase_of_ne hk2).mpr (h.keysSub w hk1)
  · show ∀ w ∈ s.berthWait, w ∉ s.berthUsers.erase v
    intro w hwm hc
    exact h.waitUsers w hwm (List.erase_subset _ _ hc)
  · show (s.berthUsers.erase v).length ≤ cfg.numBerths
    exact le_trans (List.erase_sublist v s.berthUsers).length_le h.usersLe
  · show (s.cranePool ++ [craneOf s v]).length + (s.holding.filter (fun p => p.1 ≠ v)).length =
      cfg.numQuayCranes
    have hlen := length_filter_key h.keysNodup hkv
    have hcc := h.craneCount
    simp only [List.length_append, List.length_singleton]
    omega
  · intro w
    have htk := h.tokLe w
    unfold tok at htk ⊢
    rw [hq2]
    simp only [countP_insertEv]
    dsimp only
    have hc1 : ctrl w (Act.vesselDone v) = false := rfl
    have hc2 : ctrl w Act.releaseTrigger = false := rfl
    rw [hc1, hc2]
    simp only [Bool.false_eq_true, if_false]
    have hbw : (vesselFinish cfg s v).berthWait = s.berthWait := rfl
    rw [hbw]
    omega
  · rw [hq2]
    intro x hx w hact
    rcases mem_insertEv.mp hx with rfl | hx2
    · cases hact
    rcases mem_insertEv.mp hx2 with rfl | hx3
    · cases hact
    obtain ⟨h1, h2, h3, h4, h5⟩ := h.evBerthReady x hx3 w hact
    have hne : w ≠ v := hnotv hx3 (by rw [hact]; simp [ctrl])
    refine ⟨(List.mem_erase_of_ne hne).mpr h1, ?_, h3, ?_, ?_⟩
    · intro hc
      exact h2 ((hkeys' w).mp hc).1
    · exact noMsg_append h4 (by simp)
    · exact noMsg_append h5 (by simp [hne.symm])
  · rw [hq2]
    intro x hx w hact
    rcases mem_insertEv.mp hx with rfl | hx2
    · cases hact
    rcases mem_insertEv.mp hx2 with rfl | hx3
    · cases hact
    obtain ⟨h1, h2, h3, h4, h5⟩ := h.evInitVessel x hx3 w hact
    have hne : w ≠ v := hnotv hx3 (by rw [hact]; simp [ctrl])
    refine ⟨fun hc => h1 (List.erase_subset _ _ hc), h2, h3, ?_, ?_⟩
    · exact noMsg_append h4 (by simp)
    · exact noMsg_append h5 (by simp [hne.symm])
  · rw [hq2]
    intro x hx w hact
    rcases mem_insertEv.mp hx with rfl | hx2
    · cases hact
    rcases mem_insertEv.mp hx2 with rfl | hx3
    · cases hact
    obtain ⟨h1, h2, h3⟩ := h.evInitCrane x hx3 w hact
    have hne : w ≠ v := hnotv hx3 (by rw [hact]; simp [ctrl])
    exact ⟨(hkeys' w).mpr ⟨h1, hne⟩, h2, h3⟩
  · rw [hq2]
    intro x hx w hact
    rcases mem_insertEv.mp hx with rfl | hx2
    · cases hact
    rcases mem_insertEv.mp hx2 with rfl | hx3
    · cases hact
    obtain ⟨h1, h2, h3⟩ := h.evCraneTimeout x hx3 w hact
    have hne : w ≠ v := hnotv hx3 (by rw [hact]; simp [ctrl])
    exact ⟨(hkeys' w).mpr ⟨h1, hne⟩, h2, h3⟩
  · rw [hq2]
    intro x hx w hact
    rcases mem_insertEv.mp hx with rfl | hx2
    · cases hact
    rcases mem_insertEv.mp hx2 with rfl | hx3
    · cases hact
    obtain ⟨h1, h2⟩ := h.evCraneDone x hx3 w hact
    have hne : w ≠ v := hnotv hx3 (by rw [hact]; simp [ctrl])
    exact ⟨(hkeys' w).mpr ⟨h1, hne⟩, h2⟩
  · rw [hq2]
    intro x hx tr w
    rcases mem_insertEv.mp hx with rfl | hx2
    · refine ⟨?_, ?_, ?_⟩ <;> intro hc <;> cases hc
    rcases mem_insertEv.mp hx2 with rfl | hx3
    · refine ⟨?_, ?_, ?_⟩ <;> intro hc <;> cases hc
    exact h.noTransport x hx3 tr w
  · show ∀ w ∈ s.berthWait, _
    intro w hwm
    obtain ⟨h1, h2, h3⟩ := h.waitState w hwm
    have hne : w ≠ v := fun hc => hwv (hc ▸ hwm)
    refine ⟨h1, noMsg_append h2 (by simp), noMsg_append h3 (by simp [hne.symm])⟩
  · show ∀ p ∈ s.log ++ [(s.now, Msg.leaves v)], ∀ w, p.2 = Msg.berths w → p.1 = s.berthAt w
    intro p hp w hb
    rcases List.mem_append.mp hp with hp | hp
    · exact h.logBerths p hp w hb
    · rcases List.mem_singleton.mp hp with rfl
      cases hb
  · show ∀ p ∈ s.log ++ [(s.now, Msg.leaves v)], ∀ w, p.2 = Msg.leaves w → _
    intro p hp w hb
    rcases List.mem_append.mp hp with hp | hp
    · exact h.logLeaves p hp w hb
    · rcases List.mem_singleton.mp hp with rfl
      cases hb
      exact ⟨hc0, hnow⟩
  · show ∀ p ∈ s.log ++ [(s.now, Msg.leaves v)], ∀ tr w, _ ∧ _
    intro p hp tr w
    rcases List.mem_append.mp hp with hp | hp
    · exact h.noTruckLog p hp tr w
    · rcases List.mem_singleton.mp hp with rfl
      exact ⟨(fun hc => by cases hc), (fun hc => by cases hc)⟩
  · intro w hgw
    have hgw2 : s.genI ≤ w := hgw
    obtain ⟨h1, h2, h3, h4, h5⟩ := h.fresh w hgw2
    have hne : w ≠ v := fun hc => by omega
    refine ⟨fun hc => h1 (List.erase_subset _ _ hc), h2, fun hc => h3 ((hkeys' w).mp hc).1, ?_, ?_⟩
    · rw [hq2]
      intro x hx
      rcases mem_insertEv.mp hx with rfl | hx2
      · simp only [Act.vesselOf]
        intro hc
        cases hc
        exact hne rfl
      rcases mem_insertEv.mp hx2 with rfl | hx3
      · simp [Act.vesselOf]
      exact h4 x hx3
    · show ∀ p ∈ s.log ++ [(s.now, Msg.leaves v)], _
      intro p hp
      rcases List.mem_append.mp hp with hp | hp
      · exact h5 p hp
      · rcases List.mem_singleton.mp hp with rfl
        show Msg.vesselOf (Msg.leaves v) ≠ w
        simp [Msg.vesselOf]
        exact fun hc => hne hc.symm
  · rw [hq2]
    simp only [countP_insertEv]
    dsimp only
    have hc1 : isGenCtrl (Act.vesselDone v) = false := rfl
    have hc2 : isGenCtrl Act.releaseTrigger = false := rfl
    rw [hc1, hc2]
    simp only [Bool.false_eq_true, if_false]
    have := h.genTok
    omega
  · rw [hq2]
    intro x hx hact
    rcases mem_insertEv.mp hx with rfl | hx2
    · cases hact
    rcases mem_insertEv.mp hx2 with rfl | hx3
    · cases hact
    exact h.genZero x hx3 hact

theorem ctrl_vesselOf {v : ℕ} {a : Act} (h : ctrl v a = true) : a.vesselOf = some v := by
  cases a <;> simp [ctrl] at h <;> simp [Act.vesselOf, h]

theorem noMsg_of_vesselOf {L : List (Time × Msg)} {v : ℕ} {m : Msg}
    (h : ∀ p ∈ L, Msg.vesselOf p.2 ≠ v) (hm : Msg.vesselOf m = v) : NoMsg L m :=
  fun p hp hc => h p hp (by rw [hc, hm])

/-- Scheduling an event that belongs to no vessel (a generator or release
event) preserves the invariant. -/
theorem inv_sched_neutral {cfg : Config} {s : Sim} (h : Inv cfg s) (d : Time) (p : ℕ) {a : Act}
    (hvo : a.vesselOf = none) (hng : a ≠ .initGen)
    (hgen : isGenCtrl a = true → s.queue.countP (fun e => isGenCtrl e.act) = 0) :
    Inv cfg (sched s d p a) := by
  have hctrl : ∀ w, ctrl w a = false := by
    intro w
    cases hca : ctrl w a
    · rfl
    · rw [ctrl_vesselOf hca] at hvo
      cases hvo
  refine ⟨h.waitNodup, h.keysNodup, h.keysSub, h.waitUsers, h.usersLe, h.craneCount, h.nonneg,
    ?_, ?_, ?_, ?_, ?_, ?_, ?_, h.waitState, h.logBerths, h.logLeaves, h.noTruckLog, ?_, ?_, ?_⟩
  · intro w
    have htk := h.tokLe w
    unfold tok at htk ⊢
    simp only [sched_queue, sched_berthWait, countP_insertEv]
    dsimp only
    rw [hctrl w]
    simp only [Bool.false_eq_true, if_false]
    omega
  · intro x hx w hact
    simp only [sched_queue] at hx
    rcases mem_insertEv.mp hx with rfl | hx2
    · have hva : a = _ := hact
      rw [hva] at hvo
      cases hvo
    · exact h.evBerthReady x hx2 w hact
  · intro x hx w hact
    simp only [sched_queue] at hx
    rcases mem_insertEv.mp hx with rfl | hx2
    · have hva : a = _ := hact
      rw [hva] at hvo
      cases hvo
    · exact h.evInitVessel x hx2 w hact
  · intro x hx w hact
    simp only [sched_queue] at hx
    rcases mem_insertEv.mp hx with rfl | hx2
    · have hva : a = _ := hact
      rw [hva] at hvo
      cases hvo
    · exact h.evInitCrane x hx2 w hact
  · intro x hx w hact
    simp only [sched_queue] at hx
    rcases mem_insertEv.mp hx with rfl | hx2
    · have hva : a = _ := hact
      rw [hva] at hvo
      cases hvo
    · exact h.evCraneTimeout x hx2 w hact
  · intro x hx w hact
    simp only [sched_queue] at hx
    rcases mem_insertEv.mp hx with rfl | hx2
    · have hva : a = _ := hact
      rw [hva] at hvo
      cases hvo
    · exact h.evCraneDone x hx2 w hact
  · intro x hx tr w
    simp only [sched_queue] at hx
    rcases mem_insertEv.mp hx with rfl | hx2
    · refine ⟨?_, ?_, ?_⟩ <;> intro hc <;> (have hc2 : a = _ := hc; rw [hc2] at hvo; cases hvo)
    · exact h.noTransport x hx2 tr w
  · intro w hgw
    have hgw2 : s.genI ≤ w := hgw
    obtain ⟨h1, h2, h3, h4, h5⟩ := h.fresh w hgw2
    refine ⟨h1, h2, h3, ?_, h5⟩
    intro x hx
    simp only [sched_queue] at hx
    rcases mem_insertEv.mp hx with rfl | hx2
    · show a.vesselOf ≠ some w
      rw [hvo]
      intro hc
      cases hc
    · exact h4 x hx2
  · simp only [sched_queue, countP_insertEv]
    dsimp only
    cases hga : isGenCtrl a
    · simp only [Bool.false_eq_true, if_false]
      have := h.genTok
      omega
    · simp only [if_true]
      rw [hgen hga]
  · intro x hx hact
    simp only [sched_queue] at hx
    rcases mem_insertEv.mp hx with rfl | hx2
    · exact absurd hact hng
    · exact h.genZero x hx2 hact

/-- Raising the generator loop counter preserves the invariant, provided no
`initGen` event is pending. -/
theorem inv_raise {cfg : Config} {s : Sim} (h : Inv cfg s) (g : ℕ) (hg : s.genI ≤ g)
    (hngen : ∀ x ∈ s.queue, x.act ≠ .initGen) :
    Inv cfg { s with genI := g } := by
  refine ⟨h.waitNodup, h.keysNodup, h.keysSub, h.waitUsers, h.usersLe, h.craneCount, h.nonneg,
    h.tokLe, h.evBerthReady, h.evInitVessel, h.evInitCrane, h.evCraneTimeout, h.evCraneDone,
    h.noTransport, h.waitState, h.logBerths, h.logLeaves, h.noTruckLog, ?_, h.genTok, ?_⟩
  · intro w hgw
    have hgw2 : s.genI ≤ w := le_trans hg hgw
    exact h.fresh w hgw2
  · intro x hx hact
    exact absurd hact (hngen x hx)

/-- `Vessel(env, f"V{i}", terminal)` executed by the arrival generator at a
fresh loop index `i` preserves the invariant. -/
theorem inv_vesselSpawn {cfg : Config} {s : Sim} {i : ℕ} (h : Inv cfg s)
    (hf1 : i ∉ s.berthUsers) (hf2 : i ∉ s.berthWait) (hf3 : i ∉ s.holding.map Prod.fst)
    (hf4 : ∀ e ∈ s.queue, e.act.vesselOf ≠ some i) (hf5 : ∀ p ∈ s.log, p.2.vesselOf ≠ i)
    (hfg : i < s.genI) :
    Inv cfg (vesselSpawn cfg s i) := by
  have hcont : ∀ w, w ≠ i →
      (fun w => if w = i then (cfg.containersPerVessel : ℤ) else s.containers w) w
        = s.containers w := by
    intro w hw
    simp [hw]
  have hvq : ∀ x ∈ s.queue, ∀ w, ctrl w x.act = true → w ≠ i := by
    intro x hx w hcw
    rintro rfl
    exact hf4 x hx (ctrl_vesselOf hcw)
  unfold vesselSpawn
  refine ⟨h.waitNodup, h.keysNodup, h.keysSub, h.waitUsers, h.usersLe, h.craneCount, ?_, ?_,
    ?_, ?_, ?_, ?_, ?_, ?_, ?_, ?_, ?_, ?_, ?_, ?_, ?_⟩
  · intro w
    show 0 ≤ (if w = i then (cfg.containersPerVessel : ℤ) else s.containers w)
    split
    · exact Int.natCast_nonneg _
    · exact h.nonneg w
  · intro w
    have htk := h.tokLe w
    unfold tok at htk ⊢
    simp only [sched_queue, sched_berthWait, countP_insertEv]
    dsimp only
    by_cases hwv : w = i
    · subst hwv
      have hc : ctrl w (Act.initVessel w) = true := by simp [ctrl]
      rw [hc]
      simp only [if_true]
      have hq0 : s.queue.countP (fun e => ctrl w e.act) = 0 := by
        rw [List.countP_eq_zero]
        intro x hx hcx
        exact hvq x hx w hcx rfl
      have hw0 : s.berthWait.count w = 0 := by
        rw [List.count_eq_zero]
        exact hf2
      rw [hq0, hw0]
    · have hc : ctrl w (Act.initVessel i) = false := by
        simp only [ctrl, beq_eq_false_iff_ne]
        exact fun hc => hwv hc.symm
      rw [hc]
      simp only [Bool.false_eq_true, if_false]
      omega
  · intro x hx w hact
    simp only [sched_queue] at hx
    rcases mem_insertEv.mp hx with rfl | hx2
    · cases hact
    · obtain ⟨h1, h2, h3, h4, h5⟩ := h.evBerthReady x hx2 w hact
      have hwv : w ≠ i := hvq x hx2 w (by rw [hact]; simp [ctrl])
      simp only [sched_berthUsers, sched_holding, sched_log, sched_containers]
      simp only [hcont w hwv]
      exact ⟨h1, h2, h3, h4, h5⟩
  · intro x hx w hact
    simp only [sched_queue] at hx
    rcases mem_insertEv.mp hx with rfl | hx2
    · cases hact
      simp only [sched_berthUsers, sched_berthWait, sched_log, sched_containers]
      refine ⟨hf1, hf2, by simp, ?_, ?_⟩
      · exact noMsg_of_vesselOf hf5 rfl
      · exact noMsg_of_vesselOf hf5 rfl
    · obtain ⟨h1, h2, h3, h4, h5⟩ := h.evInitVessel x hx2 w hact
      have hwv : w ≠ i := hvq x hx2 w (by rw [hact]; simp [ctrl])
      simp only [sched_berthUsers, sched_berthWait, sched_log, sched_containers]
      simp only [hcont w hwv]
      exact ⟨h1, h2, h3, h4, h5⟩
  · intro x hx w hact
    simp only [sched_queue] at hx
    rcases mem_insertEv.mp hx with rfl | hx2
    · cases hact
    · obtain ⟨h1, h2, h3⟩ := h.evInitCrane x hx2 w hact
      have hwv : w ≠ i := hvq x hx2 w (by rw [hact]; simp [ctrl])
      unfold slotTime
      simp only [sched_holding, sched_containers, sched_berthAt]
      simp only [hcont w hwv]
      exact ⟨h1, h2, h3⟩
  · intro x hx w hact
    simp only [sched_queue] at hx
    rcases mem_insertEv.mp hx with rfl | hx2
    · cases hact
    · obtain ⟨h1, h2, h3⟩ := h.evCraneTimeout x hx2 w hact
      have hwv : w ≠ i := hvq x hx2 w (by rw [hact]; simp [ctrl])
      unfold slotTime
      simp only [sched_holding, sched_containers, sched_berthAt]
      simp only [hcont w hwv]
      exact ⟨h1, h2, h3⟩
  · intro x hx w hact
    simp only [sched_queue] at hx
    rcases mem_insertEv.mp hx with rfl | hx2
    · cases hact
    · obtain ⟨h1, h2⟩ := h.evCraneDone x hx2 w hact
      have hwv : w ≠ i := hvq x hx2 w (by rw [hact]; simp [ctrl])
      unfold slotTime
      simp only [sched_holding, sched_containers, sched_berthAt]
      simp only [hcont w hwv]
      exact ⟨h1, h2⟩
  · intro x hx tr w
    simp only [sched_queue] at hx
    rcases mem_insertEv.mp hx with rfl | hx2
    · refine ⟨?_, ?_, ?_⟩ <;> intro hc <;> cases hc
    · exact h.noTransport x hx2 tr w
  · intro w hwm
    obtain ⟨h1, h2, h3⟩ := h.waitState w hwm
    have hwv : w ≠ i := fun hc => hf2 (hc ▸ hwm)
    simp only [sched_log, sched_containers]
    simp only [hcont w hwv]
    exact ⟨h1, h2, h3⟩
  · exact h.logBerths
  · intro q hq w hb
    obtain ⟨h1, h2⟩ := h.logLeaves q hq w hb
    have hwv : w ≠ i := by
      rintro rfl
      exact hf5 q hq (by rw [hb]; rfl)
    simp only [sched_containers, sched_berthAt]
    simp only [hcont w hwv]
    exact ⟨h1, h2⟩
  · exact h.noTruckLog
  · intro w hgw
    have hgw2 : s.genI ≤ w := hgw
    have hwv : w ≠ i := by omega
    obtain ⟨h1, h2, h3, h4, h5⟩ := h.fresh w hgw2
    refine ⟨h1, h2, h3, ?_, h5⟩
    intro x hx
    simp only [sched_queue] at hx
    rcases mem_insertEv.mp hx with rfl | hx2
    · simp only [Act.vesselOf]
      intro hc
      cases hc
      exact hwv rfl
    · exact h4 x hx2
  · simp only [sched_queue, countP_insertEv]
    dsimp only
    have hc : isGenCtrl (Act.initVessel i) = false := rfl
    rw [hc]
    simp only [Bool.false_eq_true, if_false]
    have := h.genTok
    omega
  · intro x hx hact
    simp only [sched_queue] at hx
    rcases mem_insertEv.mp hx with rfl | hx2
    · cases hact
    · exact h.genZero x hx2 hact

theorem fresh_lt {cfg : Config} {s : Sim} (h : Inv cfg s) {e : Ev} (hme : e ∈ s.queue) {v : ℕ}
    (hvo : e.act.vesselOf = some v) : v < s.genI := by
  by_contra hc
  exact (h.fresh v (Nat.le_of_not_lt hc)).2.2.2.1 e hme hvo

/-- Consuming the head control event of vessel `v` leaves it with no other
control point. -/
theorem tok_consume {cfg : Config} {s : Sim} (h : Inv cfg s) {e : Ev} {rest : List Ev} {v : ℕ}
    (hq : s.queue = e :: rest) (hce : ctrl v e.act = true) :
    rest.countP (fun x => ctrl v x.act) = 0 ∧ s.berthWait.count v = 0 ∧ v ∉ s.berthWait := by
  have htk := h.tokLe v
  unfold tok at htk
  rw [hq, List.countP_cons, hce] at htk
  simp only [if_true] at htk
  have h1 : rest.countP (fun x => ctrl v x.act) = 0 := by omega
  have h2 : s.berthWait.count v = 0 := by omega
  exact ⟨h1, h2, List.count_eq_zero.mp h2⟩

/-- The invariant ignores the error flag. -/
theorem inv_err {cfg : Config} {s : Sim} (h : Inv cfg s) (b : Bool) :
    Inv cfg { s with err := b } :=
  ⟨h.waitNodup, h.keysNodup, h.keysSub, h.waitUsers, h.usersLe, h.craneCount, h.nonneg,
    h.tokLe, h.evBerthReady, h.evInitVessel, h.evInitCrane, h.evCraneTimeout, h.evCraneDone,
    h.noTransport, h.waitState, h.logBerths, h.logLeaves, h.noTruckLog, h.fresh, h.genTok,
    h.genZero⟩

/-- Logging a line that is neither a berthing, a departure nor a truck message,
about an already-spawned vessel, preserves the invariant. -/
theorem inv_logMsg_vessel {cfg : Config} {s : Sim} {m : Msg} (h : Inv cfg s)
    (hv : Msg.vesselOf m < s.genI)
    (hnb : ∀ w, m ≠ .berths w) (hnl : ∀ w, m ≠ .leaves w)
    (hnt : ∀ tr w, m ≠ .truckStart tr w ∧ m ≠ .truckDeliver tr w) :
    Inv cfg (logMsg s m) := by
  refine ⟨h.waitNodup, h.keysNodup, h.keysSub, h.waitUsers, h.usersLe, h.craneCount, h.nonneg,
    h.tokLe, ?_, ?_, h.evInitCrane, h.evCraneTimeout, h.evCraneDone, h.noTransport, ?_, ?_, ?_,
    ?_, ?_, h.genTok, h.genZero⟩
  · intro x hx w hact
    obtain ⟨a1, a2, a3, a4, a5⟩ := h.evBerthReady x hx w hact
    exact ⟨a1, a2, a3, noMsg_append a4 (hnb w), noMsg_append a5 (hnl w)⟩
  · intro x hx w hact
    obtain ⟨a1, a2, a3, a4, a5⟩ := h.evInitVessel x hx w hact
    exact ⟨a1, a2, a3, noMsg_append a4 (hnb w), noMsg_append a5 (hnl w)⟩
  · intro w hwm
    obtain ⟨a1, a2, a3⟩ := h.waitState w hwm
    exact ⟨a1, noMsg_append a2 (hnb w), noMsg_append a3 (hnl w)⟩
  · show ∀ p ∈ s.log ++ [(s.now, m)], _
    intro q hq w hb
    rcases List.mem_append.mp hq with hq | hq
    · exact h.logBerths q hq w hb
    · rcases List.mem_singleton.mp hq with rfl
      exact absurd hb (hnb w)
  · show ∀ p ∈ s.log ++ [(s.now, m)], _
    intro q hq w hb
    rcases List.mem_append.mp hq with hq | hq
    · exact h.logLeaves q hq w hb
    · rcases List.mem_singleton.mp hq with rfl
      exact absurd hb (hnl w)
  · show ∀ p ∈ s.log ++ [(s.now, m)], _
    intro q hq tr w
    rcases List.mem_append.mp hq with hq | hq
    · exact h.noTruckLog q hq tr w
    · rcases List.mem_singleton.mp hq with rfl
      exact hnt tr w
  · intro w hgw
    have hgw2 : s.genI ≤ w := hgw
    obtain ⟨h1, h2, h3, h4, h5⟩ := h.fresh w hgw2
    refine ⟨h1, h2, h3, h4, ?_⟩
    show ∀ p ∈ s.log ++ [(s.now, m)], _
    intro q hq
    rcases List.mem_append.mp hq with hq | hq
    · exact h5 q hq
    · rcases List.mem_singleton.mp hq with rfl
      show Msg.vesselOf m ≠ w
      omega

/-- `vessel.containers_left -= 1` (the crane-timeout segment) preserves the
invariant when the vessel has at least one container and no other live control
point. -/
theorem inv_decrement {cfg : Config} {s : Sim} {v : ℕ} (h : Inv cfg s)
    (hq0 : s.queue.countP (fun x => ctrl v x.act) = 0) (hwv : v ∉ s.berthWait)
    (h1c : 1 ≤ s.containers v) :
    Inv cfg { s with
      containers := fun w => if w = v then s.containers v - 1 else s.containers w } := by
  have hnoctrl : ∀ x ∈ s.queue, ∀ w, ctrl w x.act = true → w ≠ v := by
    intro x hx w hcw
    rintro rfl
    have := one_le_countP_of_mem (p := fun x => ctrl w x.act) hx hcw
    omega
  have hcont : ∀ w, w ≠ v →
      (if w = v then s.containers v - 1 else s.containers w) = s.containers w := by
    intro w hw
    simp [hw]
  refine ⟨h.waitNodup, h.keysNodup, h.keysSub, h.waitUsers, h.usersLe, h.craneCount, ?_,
    h.tokLe, ?_, ?_, ?_, ?_, ?_, h.noTransport, ?_, h.logBerths, ?_, h.noTruckLog, h.fresh,
    h.genTok, h.genZero⟩
  · intro w
    dsimp only
    split
    · next hww =>
      subst hww
      have := h.nonneg w
      omega
    · exact h.nonneg w
  · intro x hx w hact
    obtain ⟨a1, a2, a3, a4, a5⟩ := h.evBerthReady x hx w hact
    have hwv2 : w ≠ v := hnoctrl x hx w (by rw [hact]; simp [ctrl])
    exact ⟨a1, a2, by dsimp only; rw [hcont w hwv2]; exact a3, a4, a5⟩
  · intro x hx w hact
    obtain ⟨a1, a2, a3, a4, a5⟩ := h.evInitVessel x hx w hact
    have hwv2 : w ≠ v := hnoctrl x hx w (by rw [hact]; simp [ctrl])
    exact ⟨a1, a2, by dsimp only; rw [hcont w hwv2]; exact a3, a4, a5⟩
  · intro x hx w hact
    obtain ⟨a1, a2, a3⟩ := h.evInitCrane x hx w hact
    have hwv2 : w ≠ v := hnoctrl x hx w (by rw [hact]; simp [ctrl])
    refine ⟨a1, by dsimp only; rw [hcont w hwv2]; exact a2, ?_⟩
    unfold slotTime
    dsimp only
    rw [hcont w hwv2]
    exact a3
  · intro x hx w hact
    obtain ⟨a1, a2, a3⟩ := h.evCraneTimeout x hx w hact
    have hwv2 : w ≠ v := hnoctrl x hx w (by rw [hact]; simp [ctrl])
    refine ⟨a1, by dsimp only; rw [hcont w hwv2]; exact a2, ?_⟩
    unfold slotTime
    dsimp only
    rw [hcont w hwv2]
    exact a3
  · intro x hx w hact
    obtain ⟨a1, a2⟩ := h.evCraneDone x hx w hact
    have hwv2 : w ≠ v := hnoctrl x hx w (by rw [hact]; simp [ctrl])
    refine ⟨a1, ?_⟩
    unfold slotTime
    dsimp only
    rw [hcont w hwv2]
    exact a2
  · intro w hwm
    obtain ⟨a1, a2, a3⟩ := h.waitState w hwm
    have hwv2 : w ≠ v := fun hc => hwv (hc ▸ hwm)
    exact ⟨by dsimp only; rw [hcont w hwv2]; exact a1, a2, a3⟩
  · intro q hq w hb
    obtain ⟨a1, a2⟩ := h.logLeaves q hq w hb
    have hwv2 : w ≠ v := by
      rintro rfl
      omega
    exact ⟨by dsimp only; rw [hcont w hwv2]; exact a1, a2⟩

/-- Starting a `load_container` subprocess for vessel `v` (its only live
control point) preserves the invariant, provided `v` holds a crane, has a
container left, and the schedule time matches its service chain. -/
theorem inv_sched_initCrane {cfg : Config} {s : Sim} {v : ℕ} (h : Inv cfg s) (d : Time) (p : ℕ)
    (htok0 : s.queue.countP (fun x => ctrl v x.act) = 0)
    (hwv : v ∉ s.berthWait) (hfv : v < s.genI) (hkv : v ∈ s.holding.map Prod.fst)
    (h1c : 1 ≤ s.containers v) (htime : s.now + d = slotTime cfg s v) :
    Inv cfg (sched s d p (.initCrane v)) := by
  have hnoctrl : ∀ x ∈ s.queue, ∀ w, ctrl w x.act = true → w ≠ v := by
    intro x hx w hcw
    rintro rfl
    have := one_le_countP_of_mem (p := fun x => ctrl w x.act) hx hcw
    omega
  refine ⟨h.waitNodup, h.keysNodup, h.keysSub, h.waitUsers, h.usersLe, h.craneCount, h.nonneg,
    ?_, ?_, ?_, ?_, ?_, ?_, ?_, h.waitState, h.logBerths, h.logLeaves, h.noTruckLog, ?_, ?_, ?_⟩
  · intro w
    have htk := h.tokLe w
    unfold tok at htk ⊢
    simp only [sched_queue, sched_berthWait, countP_insertEv]
    dsimp only
    by_cases hwv2 : w = v
    · subst hwv2
      have hc : ctrl w (Act.initCrane w) = true := by simp [ctrl]
      rw [hc]
      simp only [if_true]
      have hw0 : s.berthWait.count w = 0 := List.count_eq_zero.mpr hwv
      rw [htok0, hw0]
    · have hc : ctrl w (Act.initCrane v) = false := by
        simp only [ctrl, beq_eq_false_iff_ne]
        exact fun hc => hwv2 hc.symm
      rw [hc]
      simp only [Bool.false_eq_true, if_false]
      omega
  · intro x hx w hact
    simp only [sched_queue] at hx
    rcases mem_insertEv.mp hx with rfl | hx2
    · cases hact
    · exact h.evBerthReady x hx2 w hact
  · intro x hx w hact
    simp only [sched_queue] at hx
    rcases mem_insertEv.mp hx with rfl | hx2
    · cases hact
    · exact h.evInitVessel x hx2 w hact
  · intro x hx w hact
    simp only [sched_queue] at hx
    rcases mem_insertEv.mp hx with rfl | hx2
    · cases hact
      exact ⟨hkv, h1c, htime⟩
    · exact h.evInitCrane x hx2 w hact
  · intro x hx w hact
    simp only [sched_queue] at hx
    rcases mem_insertEv.mp hx with rfl | hx2
    · cases hact
    · exact h.evCraneTimeout x hx2 w hact
  · intro x hx w hact
    simp only [sched_queue] at hx
    rcases mem_insertEv.mp hx with rfl | hx2
    · cases hact
    · exact h.evCraneDone x hx2 w hact
  · intro x hx tr w
    simp only [sched_queue] at hx
    rcases mem_insertEv.mp hx with rfl | hx2
    · refine ⟨?_, ?_, ?_⟩ <;> intro hc <;> cases hc
    · exact h.noTransport x hx2 tr w
  · intro w hgw
    have hgw2 : s.genI ≤ w := hgw
    have hwne : w ≠ v := by omega
    obtain ⟨h1, h2, h3, h4, h5⟩ := h.fresh w hgw2
    refine ⟨h1, h2, h3, ?_, h5⟩
    intro x hx
    simp only [sched_queue] at hx
    rcases mem_insertEv.mp hx with rfl | hx2
    · simp only [Act.vesselOf]
      intro hc
      cases hc
      exact hwne rfl
    · exact h4 x hx2
  · simp only [sched_queue, countP_insertEv]
    dsimp only
    have hc : isGenCtrl (Act.initCrane v) = false := rfl
    rw [hc]
    simp only [Bool.false_eq_true, if_false]
    have := h.genTok
    omega
  · intro x hx hact
    simp only [sched_queue] at hx
    rcases mem_insertEv.mp hx with rfl | hx2
    · cases hact
    · exact h.genZero x hx2 hact

/-- Scheduling the crane-service timeout for vessel `v` preserves the
invariant. -/
theorem inv_sched_craneTimeout {cfg : Config} {s : Sim} {v : ℕ} (h : Inv cfg s) (d : Time)
    (p : ℕ)
    (htok0 : s.queue.countP (fun x => ctrl v x.act) = 0)
    (hwv : v ∉ s.berthWait) (hfv : v < s.genI) (hkv : v ∈ s.holding.map Prod.fst)
    (h1c : 1 ≤ s.containers v)
    (htime : s.now + d = slotTime cfg s v + cfg.craneContainerTime) :
    Inv cfg (sched s d p (.craneTimeout v)) := by
  refine ⟨h.waitNodup, h.keysNodup, h.keysSub, h.waitUsers, h.usersLe, h.craneCount, h.nonneg,
    ?_, ?_, ?_, ?_, ?_, ?_, ?_, h.waitState, h.logBerths, h.logLeaves, h.noTruckLog, ?_, ?_, ?_⟩
  · intro w
    have htk := h.tokLe w
    unfold tok at htk ⊢
    simp only [sched_queue, sched_berthWait, countP_insertEv]
    dsimp only
    by_cases hwv2 : w = v
    · subst hwv2
      have hc : ctrl w (Act.craneTimeout w) = true := by simp [ctrl]
      rw [hc]
      simp only [if_true]
      have hw0 : s.berthWait.count w = 0 := List.count_eq_zero.mpr hwv
      rw [htok0, hw0]
    · have hc : ctrl w (Act.craneTimeout v) = false := by
        simp only [ctrl, beq_eq_false_iff_ne]
        exact fun hc => hwv2 hc.symm
      rw [hc]
      simp only [Bool.false_eq_true, if_false]
      omega
  · intro x hx w hact
    simp only [sched_queue] at hx
    rcases mem_insertEv.mp hx with rfl | hx2
    · cases hact
    · exact h.evBerthReady x hx2 w hact
  · intro x hx w hact
    simp only [sched_queue] at hx
    rcases mem_insertEv.mp hx with rfl | hx2
    · cases hact
    · exact h.evInitVessel x hx2 w hact
  · intro x hx w hact
    simp only [sched_queue] at hx
    rcases mem_insertEv.mp hx with rfl | hx2
    · cases hact
    · exact h.evInitCrane x hx2 w hact
  · intro x hx w hact
    simp only [sched_queue] at hx
    rcases mem_insertEv.mp hx with rfl | hx2
    · cases hact
      exact ⟨hkv, h1c, htime⟩
    · exact h.evCraneTimeout x hx2 w hact
  · intro x hx w hact
    simp only [sched_queue] at hx
    rcases mem_insertEv.mp hx with rfl | hx2
    · cases hact
    · exact h.evCraneDone x hx2 w hact
  · intro x hx tr w
    simp only [sched_queue] at hx
    rcases mem_insertEv.mp hx with rfl | hx2
    · refine ⟨?_, ?_, ?_⟩ <;> intro hc <;> cases hc
    · exact h.noTransport x hx2 tr w
  · intro w hgw
    have hgw2 : s.genI ≤ w := hgw
    have hwne : w ≠ v := by omega
    obtain ⟨h1, h2, h3, h4, h5⟩ := h.fresh w hgw2
    refine ⟨h1, h2, h3, ?_, h5⟩
    intro x hx
    simp only [sched_queue] at hx
    rcases mem_insertEv.mp hx with rfl | hx2
    · simp only [Act.vesselOf]
      intro hc
      cases hc
      exact hwne rfl
    · exact h4 x hx2
  · simp only [sched_queue, countP_insertEv]
    dsimp only
    have hc : isGenCtrl (Act.craneTimeout v) = false := rfl
    rw [hc]
    simp only [Bool.false_eq_true, if_false]
    have := h.genTok
    omega
  · intro x hx hact
    simp only [sched_queue] at hx
    rcases mem_insertEv.mp hx with rfl | hx2
    · cases hact
    · exact h.genZero x hx2 hact

/-- Scheduling the `load_container` process-end event for vessel `v` preserves
the invariant. -/
theorem inv_sched_craneDone {cfg : Config} {s : Sim} {v : ℕ} (h : Inv cfg s) (d : Time) (p : ℕ)
    (htok0 : s.queue.countP (fun x => ctrl v x.act) = 0)
    (hwv : v ∉ s.berthWait) (hfv : v < s.genI) (hkv : v ∈ s.holding.map Prod.fst)
    (htime : s.now + d = slotTime cfg s v) :
    Inv cfg (sched s d p (.craneDone v)) := by
  refine ⟨h.waitNodup, h.keysNodup, h.keysSub, h.waitUsers, h.usersLe, h.craneCount, h.nonneg,
    ?_, ?_, ?_, ?_, ?_, ?_, ?_, h.waitState, h.logBerths, h.logLeaves, h.noTruckLog, ?_, ?_, ?_⟩
  · intro w
    have htk := h.tokLe w
    unfold tok at htk ⊢
    simp only [sched_queue, sched_berthWait, countP_insertEv]
    dsimp only
    by_cases hwv2 : w = v
    · subst hwv2
      have hc : ctrl w (Act.craneDone w) = true := by simp [ctrl]
      rw [hc]
      simp only [if_true]
      have hw0 : s.berthWait.count w = 0 := List.count_eq_zero.mpr hwv
      rw [htok0, hw0]
    · have hc : ctrl w (Act.craneDone v) = false := by
        simp only [ctrl, beq_eq_false_iff_ne]
        exact fun hc => hwv2 hc.symm
      rw [hc]
      simp only [Bool.false_eq_true, if_false]
      omega
  · intro x hx w hact
    simp only [sched_queue] at hx
    rcases mem_insertEv.mp hx with rfl | hx2
    · cases hact
    · exact h.evBerthReady x hx2 w hact
  · intro x hx w hact
    simp only [sched_queue] at hx
    rcases mem_insertEv.mp hx with rfl | hx2
    · cases hact
    · exact h.evInitVessel x hx2 w hact
  · intro x hx w hact
    simp only [sched_queue] at hx
    rcases mem_insertEv.mp hx with rfl | hx2
    · cases hact
    · exact h.evInitCrane x hx2 w hact
  · intro x hx w hact
    simp only [sched_queue] at hx
    rcases mem_insertEv.mp hx with rfl | hx2
    · cases hact
    · exact h.evCraneTimeout x hx2 w hact
  · intro x hx w hact
    simp only [sched_queue] at hx
    rcases mem_insertEv.mp hx with rfl | hx2
    · cases hact
      exact ⟨hkv, htime⟩
    · exact h.evCraneDone x hx2 w hact
  · intro x hx tr w
    simp only [sched_queue] at hx
    rcases mem_insertEv.mp hx with rfl | hx2
    · refine ⟨?_, ?_, ?_⟩ <;> intro hc <;> cases hc
    · exact h.noTransport x hx2 tr w
  · intro w hgw
    have hgw2 : s.genI ≤ w := hgw
    have hwne : w ≠ v := by omega
    obtain ⟨h1, h2, h3, h4, h5⟩ := h.fresh w hgw2
    refine ⟨h1, h2, h3, ?_, h5⟩
    intro x hx
    simp only [sched_queue] at hx
    rcases mem_insertEv.mp hx with rfl | hx2
    · simp only [Act.vesselOf]
      intro hc
      cases hc
      exact hwne rfl
    · exact h4 x hx2
  · simp only [sched_queue, countP_insertEv]
    dsimp only
    have hc : isGenCtrl (Act.craneDone v) = false := rfl
    rw [hc]
    simp only [Bool.false_eq_true, if_false]
    have := h.genTok
    omega
  · intro x hx hact
    simp only [sched_queue] at hx
    rcases mem_insertEv.mp hx with rfl | hx2
    · cases hact
    · exact h.genZero x hx2 hact

/-- Appending a fresh vessel to the berth `put_queue` (the pending part of
`berths.request()`) preserves the invariant. -/
theorem inv_wait_append {cfg : Config} {s : Sim} {v : ℕ} (h : Inv cfg s)
    (hu : v ∉ s.berthUsers) (hw : v ∉ s.berthWait)
    (hq0 : s.queue.countP (fun x => ctrl v x.act) = 0)
    (hcN : s.containers v = (cfg.containersPerVessel : ℤ))
    (hnb : NoMsg s.log (.berths v)) (hnl : NoMsg s.log (.leaves v))
    (hfv : v < s.genI) :
    Inv cfg { s with berthWait := s.berthWait ++ [v] } := by
  have hnoctrl : ∀ x ∈ s.queue, ∀ w, ctrl w x.act = true → w ≠ v := by
    intro x hx w hcw
    rintro rfl
    have := one_le_countP_of_mem (p := fun x => ctrl w x.act) hx hcw
    omega
  refine ⟨?_, h.keysNodup, h.keysSub, ?_, h.usersLe, h.craneCount, h.nonneg, ?_,
    h.evBerthReady, ?_, h.evInitCrane, h.evCraneTimeout, h.evCraneDone, h.noTransport, ?_,
    h.logBerths, h.logLeaves, h.noTruckLog, ?_, h.genTok, h.genZero⟩
  · show (s.berthWait ++ [v]).Nodup
    rw [List.nodup_append]
    refine ⟨h.waitNodup, List.nodup_singleton v, ?_⟩
    intro w hw1 hw2
    rcases List.mem_singleton.mp hw2 with rfl
    exact hw hw1
  · intro w hwm
    rcases List.mem_append.mp hwm with hwm | hwm
    · exact h.waitUsers w hwm
    · rcases List.mem_singleton.mp hwm with rfl
      exact hu
  · intro w
    have htk := h.tokLe w
    unfold tok at htk ⊢
    dsimp only
    rw [List.count_append]
    by_cases hwv2 : w = v
    · subst hwv2
      have : ([w] : List ℕ).count w = 1 := by simp
      rw [this]
      have hw0 : s.berthWait.count w = 0 := List.count_eq_zero.mpr hw
      rw [hw0, hq0]
    · have : ([v] : List ℕ).count w = 0 := by
        rw [List.count_eq_zero]
        simp only [List.mem_singleton]
        exact fun hc => hwv2 hc
      rw [this]
      omega
  · intro x hx w hact
    obtain ⟨a1, a2, a3, a4, a5⟩ := h.evInitVessel x hx w hact
    have hwne : w ≠ v := hnoctrl x hx w (by rw [hact]; simp [ctrl])
    refine ⟨a1, ?_, a3, a4, a5⟩
    intro hc
    rcases List.mem_append.mp hc with hc | hc
    · exact a2 hc
    · rcases List.mem_singleton.mp hc with rfl
      exact hwne rfl
  · intro w hwm
    rcases List.mem_append.mp hwm with hwm | hwm
    · exact h.waitState w hwm
    · rcases List.mem_singleton.mp hwm with rfl
      exact ⟨hcN, hnb, hnl⟩
  · intro w hgw
    have hgw2 : s.genI ≤ w := hgw
    have hwne : w ≠ v := by omega
    obtain ⟨h1, h2, h3, h4, h5⟩ := h.fresh w hgw2
    refine ⟨h1, ?_, h3, h4, h5⟩
    intro hc
    rcases List.mem_append.mp hc with hc | hc
    · exact h2 hc
    · rcases List.mem_singleton.mp hc with rfl
      exact hwne rfl

/-- Recording the berth-grant time and logging "Vessel berths" preserves the
invariant (the resumed vessel has just had its request event consumed). -/
theorem inv_berth_log {cfg : Config} {s : Sim} {v : ℕ} (h : Inv cfg s)
    (hvu : v ∈ s.berthUsers) (hvk : v ∉ s.holding.map Prod.fst)
    (hcN : s.containers v = (cfg.containersPerVessel : ℤ))
    (hnb : NoMsg s.log (.berths v)) (hnl : NoMsg s.log (.leaves v))
    (hq0 : s.queue.countP (fun x => ctrl v x.act) = 0) (hwv : v ∉ s.berthWait)
    (hfv : v < s.genI) :
    Inv cfg (logMsg { s with berthAt := fun w => if w = v then s.now else s.berthAt w }
      (.berths v)) := by
  have hnoctrl : ∀ x ∈ s.queue, ∀ w, ctrl w x.act = true → w ≠ v := by
    intro x hx w hcw
    rintro rfl
    have := one_le_countP_of_mem (p := fun x => ctrl w x.act) hx hcw
    omega
  have hbAt : ∀ w, w ≠ v → (if w = v then s.now else s.berthAt w) = s.berthAt w := by
    intro w hw
    simp [hw]
  refine ⟨h.waitNodup, h.keysNodup, h.keysSub, h.waitUsers, h.usersLe, h.craneCount, h.nonneg,
    h.tokLe, ?_, ?_, ?_, ?_, ?_, h.noTransport, ?_, ?_, ?_, ?_, ?_, h.genTok, h.genZero⟩
  · intro x hx w hact
    obtain ⟨a1, a2, a3, a4, a5⟩ := h.evBerthReady x hx w hact
    have hwne : w ≠ v := hnoctrl x hx w (by rw [hact]; simp [ctrl])
    refine ⟨a1, a2, a3, noMsg_append a4 ?_, noMsg_append a5 (by simp)⟩
    simp only [ne_eq, Msg.berths.injEq]
    exact fun hc => hwne hc.symm
  · intro x hx w hact
    obtain ⟨a1, a2, a3, a4, a5⟩ := h.evInitVessel x hx w hact
    have hwne : w ≠ v := hnoctrl x hx w (by rw [hact]; simp [ctrl])
    refine ⟨a1, a2, a3, noMsg_append a4 ?_, noMsg_append a5 (by simp)⟩
    simp only [ne_eq, Msg.berths.injEq]
    exact fun hc => hwne hc.symm
  · intro x hx w hact
    obtain ⟨a1, a2, a3⟩ := h.evInitCrane x hx w hact
    have hwne : w ≠ v := hnoctrl x hx w (by rw [hact]; simp [ctrl])
    refine ⟨a1, a2, ?_⟩
    show x.time = (if w = v then s.now else s.berthAt w) +
      ((cfg.containersPerVessel : ℤ) - s.containers w) * cfg.craneContainerTime
    rw [hbAt w hwne]
    exact a3
  · intro x hx w hact
    obtain ⟨a1, a2, a3⟩ := h.evCraneTimeout x hx w hact
    have hwne : w ≠ v := hnoctrl x hx w (by rw [hact]; simp [ctrl])
    refine ⟨a1, a2, ?_⟩
    show x.time = (if w = v then s.now else s.berthAt w) +
      ((cfg.containersPerVessel : ℤ) - s.containers w) * cfg.craneContainerTime +
      cfg.craneContainerTime
    rw [hbAt w hwne]
    exact a3
  · intro x hx w hact
    obtain ⟨a1, a2⟩ := h.evCraneDone x hx w hact
    have hwne : w ≠ v := hnoctrl x hx w (by rw [hact]; simp [ctrl])
    refine ⟨a1, ?_⟩
    show x.time = (if w = v then s.now else s.berthAt w) +
      ((cfg.containersPerVessel : ℤ) - s.containers w) * cfg.craneContainerTime
    rw [hbAt w hwne]
    exact a2
  · intro w hwm
    obtain ⟨a1, a2, a3⟩ := h.waitState w hwm
    have hwne : w ≠ v := fun hc => hwv (hc ▸ hwm)
    refine ⟨a1, noMsg_append a2 ?_, noMsg_append a3 (by simp)⟩
    simp only [ne_eq, Msg.berths.injEq]
    exact fun hc => hwne hc.symm
  · show ∀ p ∈ s.log ++ [(s.now, Msg.berths v)], _
    intro q hq w hb
    rcases List.mem_append.mp hq with hq1 | hq1
    · have hwne : w ≠ v := by
        rintro rfl
        exact hnb q hq1 hb
      have ha := h.logBerths q hq1 w hb
      show q.1 = if w = v then s.now else s.berthAt w
      rw [hbAt w hwne]
      exact ha
    · rcases List.mem_singleton.mp hq1 with rfl
      cases hb
      show s.now = if v = v then s.now else s.berthAt v
      rw [if_pos rfl]
  · show ∀ p ∈ s.log ++ [(s.now, Msg.berths v)], _
    intro q hq w hb
    rcases List.mem_append.mp hq with hq1 | hq1
    · have hwne : w ≠ v := by
        rintro rfl
        exact hnl q hq1 hb
      obtain ⟨a1, a2⟩ := h.logLeaves q hq1 w hb
      refine ⟨a1, ?_⟩
      show q.1 = (if w = v then s.now else s.berthAt w) +
        (cfg.containersPerVessel : ℤ) * cfg.craneContainerTime
      rw [hbAt w hwne]
      exact a2
    · rcases List.mem_singleton.mp hq1 with rfl
      cases hb
  · show ∀ p ∈ s.log ++ [(s.now, Msg.berths v)], _
    intro q hq tr w
    rcases List.mem_append.mp hq with hq | hq
    · exact h.noTruckLog q hq tr w
    · rcases List.mem_singleton.mp hq with rfl
      exact ⟨(fun hc => by cases hc), (fun hc => by cases hc)⟩
  · intro w hgw
    have hgw2 : s.genI ≤ w := hgw
    have hwne : w ≠ v := by omega
    obtain ⟨h1, h2, h3, h4, h5⟩ := h.fresh w hgw2
    refine ⟨h1, h2, h3, h4, ?_⟩
    show ∀ p ∈ s.log ++ [(s.now, Msg.berths v)], _
    intro q hq
    rcases List.mem_append.mp hq with hq | hq
    · exact h5 q hq
    · rcases List.mem_singleton.mp hq with rfl
      show Msg.vesselOf (Msg.berths v) ≠ w
      simp only [Msg.vesselOf]
      exact fun hc => hwne hc.symm

/-- `crane = self.terminal.quay_cranes.pop(0)`: moving the head crane from the
pool to the berthed vessel preserves the invariant. -/
theorem inv_hold_push {cfg : Config} {s : Sim} {v c : ℕ} {pool : List ℕ} (h : Inv cfg s)
    (hpool : s.cranePool = c :: pool)
    (hvu : v ∈ s.berthUsers) (hvk : v ∉ s.holding.map Prod.fst)
    (hq0 : s.queue.countP (fun x => ctrl v x.act) = 0)
    (hfv : v < s.genI) :
    Inv cfg { s with cranePool := pool, holding := (v, c) :: s.holding } := by
  have hnoctrl : ∀ x ∈ s.queue, ∀ w, ctrl w x.act = true → w ≠ v := by
    intro x hx w hcw
    rintro rfl
    have := one_le_countP_of_mem (p := fun x => ctrl w x.act) hx hcw
    omega
  refine ⟨h.waitNodup, ?_, ?_, h.waitUsers, h.usersLe, ?_, h.nonneg, h.tokLe, ?_,
    h.evInitVessel, ?_, ?_, ?_, h.noTransport, h.waitState, h.logBerths, h.logLeaves,
    h.noTruckLog, ?_, h.genTok, h.genZero⟩
  · show (((v, c) :: s.holding).map Prod.fst).Nodup
    rw [List.map_cons, List.nodup_cons]
    exact ⟨hvk, h.keysNodup⟩
  · intro w hk
    rw [List.map_cons] at hk
    rcases List.mem_cons.mp hk with rfl | hk
    · exact hvu
    · exact h.keysSub w hk
  · show pool.length + ((v, c) :: s.holding).length = cfg.numQuayCranes
    have := h.craneCount
    rw [hpool] at this
    simp only [List.length_cons] at this ⊢
    omega
  · intro x hx w hact
    obtain ⟨a1, a2, a3, a4, a5⟩ := h.evBerthReady x hx w hact
    have hwne : w ≠ v := hnoctrl x hx w (by rw [hact]; simp [ctrl])
    refine ⟨a1, ?_, a3, a4, a5⟩
    rw [List.map_cons]
    intro hc
    rcases List.mem_cons.mp hc with hc | hc
    · exact hwne hc
    · exact a2 hc
  · intro x hx w hact
    obtain ⟨a1, a2, a3⟩ := h.evInitCrane x hx w hact
    exact ⟨by rw [List.map_cons]; exact List.mem_cons_of_mem _ a1, a2, a3⟩
  · intro x hx w hact
    obtain ⟨a1, a2, a3⟩ := h.evCraneTimeout x hx w hact
    exact ⟨by rw [List.map_cons]; exact List.mem_cons_of_mem _ a1, a2, a3⟩
  · intro x hx w hact
    obtain ⟨a1, a2⟩ := h.evCraneDone x hx w hact
    exact ⟨by rw [List.map_cons]; exact List.mem_cons_of_mem _ a1, a2⟩
  · intro w hgw
    have hgw2 : s.genI ≤ w := hgw
    have hwne : w ≠ v := by omega
    obtain ⟨h1, h2, h3, h4, h5⟩ := h.fresh w hgw2
    refine ⟨h1, h2, ?_, h4, h5⟩
    rw [List.map_cons]
    intro hc
    rcases List.mem_cons.mp hc with hc | hc
    · exact hwne hc
    · exact h3 hc

theorem countP_genCtrl_vesselSpawn (cfg : Config) (t : Sim) (i : ℕ)
    (ht : t.queue.countP (fun x => isGenCtrl x.act) = 0) :
    (vesselSpawn cfg t i).queue.countP (fun x => isGenCtrl x.act) = 0 := by
  unfold vesselSpawn
  simp only [sched_queue, countP_insertEv]
  dsimp only
  rw [show isGenCtrl (Act.initVessel i) = false from rfl]
  simp only [Bool.false_eq_true, if_false]
  simpa using ht

/-- One scheduler step preserves the invariant. -/
theorem inv_step (cfg : Config) (draws : ℕ → Time) {s : Sim} (h : Inv cfg s) :
    Inv cfg (step cfg draws s) := by
  unfold step
  split
  · exact h
  split
  · exact h
  next e rest heq =>
  split
  · next htlt =>
    have hme : e ∈ s.queue := by rw [heq]; exact List.mem_cons_self _ _
    have h1 : Inv cfg { s with now := e.time, queue := rest } := inv_pop e.time h heq
    cases hae : e.act with
    | initGen =>
        have hgenct : isGenCtrl e.act = true := by rw [hae]; rfl
        have hg0 : rest.countP (fun x => isGenCtrl x.act) = 0 := by
          have hgt := h.genTok
          rw [heq, List.countP_cons, hgenct] at hgt
          simp only [if_true] at hgt
          omega
        have hngen : ∀ x ∈ rest, x.act ≠ Act.initGen := by
          intro x hx hc
          refine List.countP_eq_zero.mp hg0 x hx ?_
          show isGenCtrl x.act = true
          rw [hc]
          rfl
        have hgz : s.genI = 0 := h.genZero e hme hae
        simp only [handle]
        split
        · exact inv_sched_neutral h1 0 1 rfl (fun hc => by cases hc) (fun hh => by cases hh)
        · have h2 := inv_raise h1 1 (by show s.genI ≤ 1; omega) hngen
          exact inv_sched_neutral h2 (draws 0) 1 rfl (fun hc => by cases hc)
            (fun _ => show rest.countP (fun x => isGenCtrl x.act) = 0 from hg0)
    | genTimeout =>
        have hgenct : isGenCtrl e.act = true := by rw [hae]; rfl
        have hg0 : rest.countP (fun x => isGenCtrl x.act) = 0 := by
          have hgt := h.genTok
          rw [heq, List.countP_cons, hgenct] at hgt
          simp only [if_true] at hgt
          omega
        have hngen : ∀ x ∈ rest, x.act ≠ Act.initGen := by
          intro x hx hc
          refine List.countP_eq_zero.mp hg0 x hx ?_
          show isGenCtrl x.act = true
          rw [hc]
          rfl
        have h2a := inv_raise h1 (s.genI + 1) (Nat.le_succ _) hngen
        obtain ⟨f1, f2, f3, f4, f5⟩ := h1.fresh s.genI le_rfl
        simp only [handle]
        split
        · split
          · have h2 := inv_vesselSpawn h2a f1 f2 f3 f4 f5 (Nat.lt_succ_self _)
            exact inv_sched_neutral h2 _ 1 rfl (fun hc => by cases hc)
              (fun _ => countP_genCtrl_vesselSpawn cfg _ _ hg0)
          · exact inv_sched_neutral h2a _ 1 rfl (fun hc => by cases hc)
              (fun _ => show rest.countP (fun x => isGenCtrl x.act) = 0 from hg0)
        · split
          · have h2 := inv_vesselSpawn h2a f1 f2 f3 f4 f5 (Nat.lt_succ_self _)
            exact inv_sched_neutral h2 0 1 rfl (fun hc => by cases hc) (fun hh => by cases hh)
          · exact inv_sched_neutral h2a 0 1 rfl (fun hc => by cases hc) (fun hh => by cases hh)
    | genDone => exact h1
    | initVessel v =>
        have hct : ctrl v e.act = true := by rw [hae]; simp [ctrl]
        obtain ⟨htok0, hwc0, hwvn⟩ := tok_consume h heq hct
        have hfv : v < s.genI := fresh_lt h hme (by rw [hae]; rfl)
        obtain ⟨hvu, hvw, hcN, hnb, hnl⟩ := h.evInitVessel e hme v hae
        have h2 := inv_logMsg_vessel h1 (m := .arrives v) hfv
          (fun w hc => by cases hc) (fun w hc => by cases hc)
          (fun tr w => ⟨(fun hc => by cases hc), (fun hc => by cases hc)⟩)
        have h3 := inv_wait_append h2 hvu hvw htok0 hcN
          (noMsg_append hnb (fun hc => by cases hc)) (noMsg_append hnl (fun hc => by cases hc))
          hfv
        exact inv_triggerPut h3
    | berthReady v =>
        have hct : ctrl v e.act = true := by rw [hae]; simp [ctrl]
        obtain ⟨htok0, hwc0, hwvn⟩ := tok_consume h heq hct
        have hfv : v < s.genI := fresh_lt h hme (by rw [hae]; rfl)
        obtain ⟨hvu, hvk, hcN, hnb, hnl⟩ := h.evBerthReady e hme v hae
        have h2 := inv_berth_log h1 hvu hvk hcN hnb hnl htok0 hwvn hfv
        simp only [handle]
        split
        · exact inv_err h2 true
        · next c pool hpool =>
          have h3 := inv_hold_push h2 hpool hvu hvk htok0 hfv
          split
          · next hpos =>
            have h1c : 1 ≤ s.containers v := by
              have hp : (0 : ℤ) < s.containers v := hpos
              omega
            refine inv_sched_initCrane h3 0 0 htok0 hwvn hfv ?_ h1c ?_
            · show v ∈ ((v, c) :: s.holding).map Prod.fst
              rw [List.map_cons]
              exact List.mem_cons_self _ _
            · show e.time + 0 = (if v = v then e.time else s.berthAt v) +
                ((cfg.containersPerVessel : ℤ) - s.containers v) *
                  cfg.craneContainerTime
              rw [if_pos rfl, hcN]
              simp
          · next hneg =>
            have hc0 : s.containers v = 0 := by
              have hp : ¬(0 : ℤ) < s.containers v := hneg
              have := h.nonneg v
              omega
            have hN0 : (cfg.containersPerVessel : ℤ) = 0 := by
              have hz : (cfg.containersPerVessel : ℤ) = 0 := by rw [← hcN]; exact hc0
              exact_mod_cast hz
            refine inv_vesselFinish h3 ?_ hc0 ?_ htok0 hwvn hfv
            · show v ∈ ((v, c) :: s.holding).map Prod.fst
              rw [List.map_cons]
              exact List.mem_cons_self _ _
            · show e.time = (if v = v then e.time else s.berthAt v) +
                (cfg.containersPerVessel : ℤ) * cfg.craneContainerTime
              rw [if_pos rfl, hN0]
              ring
    | initCrane v =>
        have hct : ctrl v e.act = true := by rw [hae]; simp [ctrl]
        obtain ⟨htok0, hwc0, hwvn⟩ := tok_consume h heq hct
        have hfv : v < s.genI := fresh_lt h hme (by rw [hae]; rfl)
        obtain ⟨hkv, h1c, htime⟩ := h.evInitCrane e hme v hae
        have h2 := inv_logMsg_vessel h1
          (m := .craneStart (craneOf { s with now := e.time, queue := rest } v) v) hfv
          (fun w hc => by cases hc) (fun w hc => by cases hc)
          (fun tr w => ⟨(fun hc => by cases hc), (fun hc => by cases hc)⟩)
        refine inv_sched_craneTimeout h2 cfg.craneContainerTime 1 htok0 hwvn hfv hkv h1c ?_
        show e.time + cfg.craneContainerTime = slotTime cfg s v + cfg.craneContainerTime
        rw [htime]
    | craneTimeout v =>
        have hct : ctrl v e.act = true := by rw [hae]; simp [ctrl]
        obtain ⟨htok0, hwc0, hwvn⟩ := tok_consume h heq hct
        have hfv : v < s.genI := fresh_lt h hme (by rw [hae]; rfl)
        obtain ⟨hkv, h1c, htime⟩ := h.evCraneTimeout e hme v hae
        have h2 := inv_decrement h1 htok0 hwvn h1c
        have h3 := inv_logMsg_vessel h2
          (m := .craneFinish (craneOf { { s with now := e.time, queue := rest } with
            containers := fun w => if w = v then
              ({ s with now := e.time, queue := rest } : Sim).containers v - 1
            else ({ s with now := e.time, queue := rest } : Sim).containers w } v) v) hfv
          (fun w hc => by cases hc) (fun w hc => by cases hc)
          (fun tr w => ⟨(fun hc => by cases hc), (fun hc => by cases hc)⟩)
        refine inv_sched_craneDone h3 0 1 htok0 hwvn hfv hkv ?_
        show e.time + 0 = s.berthAt v +
          ((cfg.containersPerVessel : ℤ) - (if v = v then s.containers v - 1
            else s.containers v)) * cfg.craneContainerTime
        unfold slotTime at htime
        rw [if_pos rfl, add_zero, htime]
        ring
    | craneDone v =>
        have hct : ctrl v e.act = true := by rw [hae]; simp [ctrl]
        obtain ⟨htok0, hwc0, hwvn⟩ := tok_consume h heq hct
        have hfv : v < s.genI := fresh_lt h hme (by rw [hae]; rfl)
        obtain ⟨hkv, htime⟩ := h.evCraneDone e hme v hae
        simp only [handle]
        split
        · next hpos =>
          have h1c : 1 ≤ s.containers v := by
            have hp : (0 : ℤ) < s.containers v := hpos
            omega
          refine inv_sched_initCrane h1 0 0 htok0 hwvn hfv hkv h1c ?_
          show e.time + 0 = slotTime cfg s v
          rw [add_zero]
          exact htime
        · next hneg =>
          have hc0 : s.containers v = 0 := by
            have hp : ¬(0 : ℤ) < s.containers v := hneg
            have := h.nonneg v
            omega
          have hnow : e.time = s.berthAt v +
              (cfg.containersPerVessel : ℤ) * cfg.craneContainerTime := by
            unfold slotTime at htime
            rw [hc0] at htime
            simpa using htime
          exact inv_vesselFinish h1 hkv hc0 hnow htok0 hwvn hfv
    | releaseTrigger => exact inv_triggerPut h1
    | vesselDone v => exact h1
    | initTransport tr v => exact absurd hae ((h.noTransport e hme tr v).1)
    | transportTimeout tr v => exact absurd hae ((h.noTransport e hme tr v).2.1)
    | transportDone tr v => exact absurd hae ((h.noTransport e hme tr v).2.2)
  · exact h

/-- Every state reached by `run` satisfies the invariant. -/
theorem inv_run (cfg : Config) (draws : ℕ → Time) (n : ℕ) : Inv cfg (run cfg draws n) := by
  induction n with
  | zero => exact inv_init cfg
  | succ k ih =>
      rw [run, Function.iterate_succ_apply']
      exact inv_step cfg draws ih

/-! ### Concrete scenarios -/

/-- The all-zero draw stream: every `random.expovariate` call returns 0, so all
vessels arrive at time 0. -/
def drawsZero : ℕ → Time := fun _ => 0

/-- The spec's concrete scenario: 1 berth, 1 crane, 1 vessel carrying 3
containers, crane unit-service time 3, vessel arriving at time 0. -/
def cfg5 : Config :=
  { simulationTime := 720
    numBerths := 1
    numQuayCranes := 1
    numTrucks := 1
    numVessel := 1
    averageVesselArrivalInterval := 300
    containersPerVessel := 3
    craneContainerTime := 3
    truckTransportTime := 6 }

/-- The scenario of `cfg5` but with the simulation horizon at time 5, so the
run is cut off mid-unloading. -/
def cfgShortHorizon : Config := { cfg5 with simulationTime := 5 }

/-- A state whose berths are all occupied while the wait queue is empty (used
to exercise the arrival generator's admission check). -/
def busyTerminal : Sim := { initSim defaultConfig with berthUsers := [1, 2], genI := 3 }

theorem step_of_queue_nil {cfg : Config} {draws : ℕ → Time} {s : Sim} (hq : s.queue = []) :
    step cfg draws s = s := by
  unfold step
  split
  · rfl
  · rw [hq]

theorem run_cfg5_fix (k : ℕ) : run cfg5 drawsZero (16 + k) = run cfg5 drawsZero 16 := by
  induction k with
  | zero => rfl
  | succ k ih =>
      have hstep : run cfg5 drawsZero (16 + (k + 1)) =
          step cfg5 drawsZero (run cfg5 drawsZero (16 + k)) := by
        show run cfg5 drawsZero ((16 + k) + 1) = _
        rw [run, run, Function.iterate_succ_apply']
      rw [hstep, ih, step_of_queue_nil (by decide)]

/-! ### The claims -/

/-- C1: a vessel's `containers_left` starts at `CONTAINERS_PER_VESSEL` when the
vessel is created, goes down by exactly 1 per completed crane service step
(the `craneTimeout` segment), is never negative in any reachable state, and is
exactly 0 in every state whose log contains the vessel's departure line — in
particular at the moment the berth is released (the departure line is written
in that same atomic segment) and at every later point. -/
theorem claim_C1_containers (cfg : Config) (draws : ℕ → Time) (n : ℕ) (v : ℕ) :
    0 ≤ (run cfg draws n).containers v ∧
    (∀ t : Time, (t, Msg.leaves v) ∈ (run cfg draws n).log →
      (run cfg draws n).containers v = 0) ∧
    (∀ s : Sim, (vesselSpawn cfg s v).containers v = (cfg.containersPerVessel : ℤ)) ∧
    (∀ s : Sim,
      (handle cfg draws s (.craneTimeout v)).containers v = s.containers v - 1) := by
  have hI := inv_run cfg draws n
  refine ⟨hI.nonneg v, ?_, ?_, ?_⟩
  · intro t hmem
    exact (hI.logLeaves (t, Msg.leaves v) hmem v rfl).1
  · intro s
    show (if v = v then (cfg.containersPerVessel : ℤ) else s.containers v) = _
    rw [if_pos rfl]
  · intro s
    show (if v = v then s.containers v - 1 else s.containers v) = _
    rw [if_pos rfl]

theorem claim_C1_containers_witness :
    0 ≤ (run cfg5 drawsZero 16).containers 1 ∧ (run cfg5 drawsZero 16).containers 1 = 0 :=
  ⟨(claim_C1_containers cfg5 drawsZero 16 1).1,
   (claim_C1_containers cfg5 drawsZero 16 1).2.1 9 (by decide)⟩

theorem triggerPut_users_le {cfg : Config} {t : Sim}
    (hle : t.berthUsers.length ≤ cfg.numBerths) :
    (triggerPut cfg t).berthUsers.length ≤ cfg.numBerths := by
  unfold triggerPut
  split
  · exact hle
  · split
    · next hcap =>
      simp only [sched_berthUsers, List.length_append, List.length_singleton]
      omega
    · exact hle

theorem vesselFinish_users_le {cfg : Config} {t : Sim} {v : ℕ}
    (hle : t.berthUsers.length ≤ cfg.numBerths) :
    (vesselFinish cfg t v).berthUsers.length ≤ cfg.numBerths := by
  show (t.berthUsers.erase v).length ≤ cfg.numBerths
  exact le_trans (List.erase_sublist v t.berthUsers).length_le hle

/-- C2: in every reachable state of every run the number of currently-held
berth grants (`len(berths.users)`, a list length, hence never negative) is at
most the capacity `NUM_BERTHS`, and this bound is preserved by every generator
segment — in particular by `berths.request()` (the `initVessel` segment) and by
`berths.release(...)` and its release-event processing (`craneDone`,
`releaseTrigger`). -/
theorem claim_C2_berth_capacity (cfg : Config) (draws : ℕ → Time) (n : ℕ) :
    (0 ≤ (run cfg draws n).berthUsers.length ∧
      (run cfg draws n).berthUsers.length ≤ cfg.numBerths) ∧
    (∀ u : Sim, ∀ a : Act, u.berthUsers.length ≤ cfg.numBerths →
      (handle cfg draws u a).berthUsers.length ≤ cfg.numBerths) := by
  refine ⟨⟨Nat.zero_le _, (inv_run cfg draws n).usersLe⟩, ?_⟩
  intro u a hle
  cases a with
  | initGen =>
      simp only [handle]
      split <;> exact hle
  | genTimeout =>
      simp only [handle]
      split <;> split <;> exact hle
  | genDone => exact hle
  | initVessel v =>
      simp only [handle]
      exact triggerPut_users_le hle
  | berthReady v =>
      simp only [handle]
      split
      · exact hle
      · split
        · exact hle
        · exact vesselFinish_users_le hle
  | initCrane v => exact hle
  | craneTimeout v => exact hle
  | craneDone v =>
      simp only [handle]
      split
      · exact hle
      · exact vesselFinish_users_le hle
  | releaseTrigger => exact triggerPut_users_le hle
  | vesselDone v => exact hle
  | initTransport tr v => exact hle
  | transportTimeout tr v => exact hle
  | transportDone tr v => exact hle

theorem claim_C2_berth_capacity_witness :
    (run defaultConfig drawsZero 20).berthUsers.length ≤ defaultConfig.numBerths ∧
    (handle defaultConfig drawsZero (initSim defaultConfig) Act.genDone).berthUsers.length ≤
      defaultConfig.numBerths :=
  ⟨(claim_C2_berth_capacity defaultConfig drawsZero 20).1.2,
   (claim_C2_berth_capacity defaultConfig drawsZero 20).2 (initSim defaultConfig) Act.genDone
     (by decide)⟩

theorem ne_head_of_later {a b : ℕ} {l1 l2 l3 : List ℕ}
    (hnd : (l1 ++ a :: l2 ++ b :: l3).Nodup) :
    ∀ {x : ℕ} {xs : List ℕ}, l1 ++ a :: l2 ++ b :: l3 = x :: xs → x ≠ b := by
  intro x xs hW
  cases l1 with
  | nil =>
      simp only [List.nil_append] at hW
      injection hW with h1 h2
      subst h1
      rintro rfl
      have hnd1 : (a :: (l2 ++ a :: l3)).Nodup := by simpa using hnd
      exact (List.nodup_cons.mp hnd1).1 (List.mem_append_right _ (List.mem_cons_self _ _))
  | cons y l1' =>
      rw [List.cons_append] at hW
      injection hW with h1 h2
      subst h1
      rintro rfl
      have hnd1 : (y :: (l1' ++ a :: l2 ++ y :: l3)).Nodup := by simpa using hnd
      exact (List.nodup_cons.mp hnd1).1 (by simp)

theorem triggerPut_users_mem {cfg : Config} {t : Sim} {b : ℕ}
    (hb : b ∈ (triggerPut cfg t).berthUsers) :
    b ∈ t.berthUsers ∨ ∃ r, t.berthWait = b :: r := by
  unfold triggerPut at hb
  split at hb
  · exact Or.inl hb
  · next v rest hw =>
    split at hb
    · simp only [sched_berthUsers] at hb
      rcases List.mem_append.mp hb with hb | hb
      · exact Or.inl hb
      · rcases List.mem_singleton.mp hb with rfl
        exact Or.inr ⟨rest, hw⟩
    · exact Or.inl hb

/-- A scheduler step only ever grants the berth to the head of `put_queue`: a
vessel `b` queued behind some other vessel `a` cannot newly enter `users`. -/
theorem step_no_overtake {cfg : Config} {draws : ℕ → Time} {s : Sim} (hI : Inv cfg s)
    {a b : ℕ} {l1 l2 l3 : List ℕ}
    (hdec : s.berthWait = l1 ++ a :: l2 ++ b :: l3)
    (hb : b ∈ (step cfg draws s).berthUsers) : b ∈ s.berthUsers := by
  have hnd : (l1 ++ a :: l2 ++ b :: l3).Nodup := hdec ▸ hI.waitNodup
  unfold step at hb
  split at hb
  · exact hb
  split at hb
  · exact hb
  next e rest heq =>
  split at hb
  · revert hb
    cases hae : e.act with
    | initGen =>
        intro hb
        simp only [handle] at hb
        split at hb <;> exact hb
    | genTimeout =>
        intro hb
        simp only [handle] at hb
        split at hb <;> split at hb <;> exact hb
    | genDone => intro hb; exact hb
    | initVessel v =>
        intro hb
        simp only [handle] at hb
        rcases triggerPut_users_mem hb with hb2 | ⟨r, hW⟩
        · exact hb2
        · have hW2 : s.berthWait ++ [v] = b :: r := hW
          rw [hdec] at hW2
          cases hL : l1 ++ a :: l2 ++ b :: l3 with
          | nil => exact absurd hL (by simp)
          | cons x xs =>
              rw [hL, List.cons_append] at hW2
              injection hW2 with h1 h2
              exact absurd h1 (ne_head_of_later hnd hL)
    | berthReady v =>
        intro hb
        simp only [handle] at hb
        split at hb
        · exact hb
        · split at hb
          · exact hb
          · have hb2 : b ∈ s.berthUsers.erase v := hb
            exact List.mem_of_mem_erase hb2
    | initCrane v => intro hb; exact hb
    | craneTimeout v => intro hb; exact hb
    | craneDone v =>
        intro hb
        simp only [handle] at hb
        split at hb
        · exact hb
        · have hb2 : b ∈ s.berthUsers.erase v := hb
          exact List.mem_of_mem_erase hb2
    | releaseTrigger =>
        intro hb
        rcases triggerPut_users_mem hb with hb2 | ⟨r, hW⟩
        · exact hb2
        · have hW2 : s.berthWait = b :: r := hW
          rw [hdec] at hW2
          exact absurd rfl (ne_head_of_later hnd hW2)
    | vesselDone v => intro hb; exact hb
    | initTransport tr v => intro hb; exact hb
    | transportTimeout tr v => intro hb; exact hb
    | transportDone tr v => intro hb; exact hb
  · exact hb

/-- C3: berth grants are strictly FIFO.  If at some point of a run vessel `a`
sits before vessel `b` in the berth wait queue (so `a` requested before `b`,
since requests append at the tail), then the next scheduler step — whatever
event it processes, including a release event at the same simulated time —
never grants `b` a berth: `b` cannot be among the berth users afterwards
unless it already was (which the invariant rules out for queued vessels). -/
theorem claim_C3_fifo (cfg : Config) (draws : ℕ → Time) (n : ℕ) (a b : ℕ)
    (l1 l2 l3 : List ℕ)
    (hdec : (run cfg draws n).berthWait = l1 ++ a :: l2 ++ b :: l3) :
    ¬(b ∈ (run cfg draws (n + 1)).berthUsers ∧ b ∉ (run cfg draws n).berthUsers) := by
  rintro ⟨hb1, hb2⟩
  have hstep : run cfg draws (n + 1) = step cfg draws (run cfg draws n) := by
    rw [run, run, Function.iterate_succ_apply']
  rw [hstep] at hb1
  exact hb2 (step_no_overtake (inv_run cfg draws n) hdec hb1)

theorem claim_C3_fifo_witness :
    ¬(4 ∈ (run defaultConfig drawsZero 14).berthUsers ∧
      4 ∉ (run defaultConfig drawsZero 13).berthUsers) :=
  claim_C3_fifo defaultConfig drawsZero 13 3 4 [] [] [] (by decide)

/-- C4: one crane service step is exactly one suspension of fixed duration
`CRANE_CONTAINER_TIME`: the `load_container` segment up to its `yield`
(`initCrane`) changes no vessel's `containers_left` and schedules exactly the
crane timeout at `now + craneContainerTime`; only the completion segment
(`craneTimeout`) decrements the serviced vessel's count, by exactly 1, leaving
every other vessel untouched. -/
theorem claim_C4_load_container (cfg : Config) (draws : ℕ → Time) (s : Sim) (v : ℕ) :
    (handle cfg draws s (.initCrane v)).containers = s.containers ∧
    (handle cfg draws s (.initCrane v)).queue =
      insertEv ⟨s.now + cfg.craneContainerTime, 1, s.nextSeq, .craneTimeout v⟩ s.queue ∧
    (handle cfg draws s (.craneTimeout v)).containers v = s.containers v - 1 ∧
    (∀ w, w ≠ v → (handle cfg draws s (.craneTimeout v)).containers w = s.containers w) := by
  refine ⟨rfl, rfl, ?_, ?_⟩
  · show (if v = v then s.containers v - 1 else s.containers v) = _
    rw [if_pos rfl]
  · intro w hw
    show (if w = v then s.containers v - 1 else s.containers w) = _
    rw [if_neg hw]

theorem claim_C4_load_container_witness :
    (handle defaultConfig drawsZero (initSim defaultConfig) (.craneTimeout 1)).containers 1 =
      (initSim defaultConfig).containers 1 - 1 ∧
    (handle defaultConfig drawsZero (initSim defaultConfig) (.craneTimeout 1)).containers 2 =
      (initSim defaultConfig).containers 2 :=
  ⟨(claim_C4_load_container defaultConfig drawsZero (initSim defaultConfig) 1).2.2.1,
   (claim_C4_load_container defaultConfig drawsZero (initSim defaultConfig) 1).2.2.2 2
     (by decide)⟩

/-- C5: with 1 berth, 1 crane, 1 vessel carrying 3 containers, unit service
time 3 and arrival at time 0, the run's log is exactly: arrival at 0, berthing
at 0, crane-start at 0, crane-finish at 3, crane-start at 3, crane-finish at
6, crane-start at 6, crane-finish at 9, departure at 9 — in that order, for
the whole run (after 16 steps the event queue is empty and the state is a
fixed point). -/
theorem claim_C5_scenario_log (k : ℕ) :
    (run cfg5 drawsZero (16 + k)).log =
      [((0 : ℤ), Msg.arrives 1), (0, Msg.berths 1), (0, Msg.craneStart 1 1),
       (3, Msg.craneFinish 1 1), (3, Msg.craneStart 1 1), (6, Msg.craneFinish 1 1),
       (6, Msg.craneStart 1 1), (9, Msg.craneFinish 1 1), (9, Msg.leaves 1)] := by
  rw [run_cfg5_fix]
  decide

/-- C6: one iteration of `vessel_on_the_terminal`, resumed after its
exponential-interval timeout (the draw stream models `random.expovariate`):
it spawns vessel `V{i}` if and only if the number of processes queued for a
berth (`len(terminal.berths.queue)`) — not the number of berths in use — is
strictly smaller than `NUM_BERTHS`; a spawned vessel starts with
`CONTAINERS_PER_VESSEL` containers and its `Initialize` event at the current
time; the loop then either suspends on the next draw (when `i < NUM_VESSEL`,
so exactly `NUM_VESSEL` iterations run) or terminates.  Because the check
reads the wait queue, a vessel can be spawned while every berth is occupied
(see the witness) and must then queue. -/
theorem claim_C6_generator (cfg : Config) (draws : ℕ → Time) (s : Sim)
    (hfresh : ∀ x ∈ s.queue, x.act ≠ .initVessel s.genI) :
    ((∃ x ∈ (handle cfg draws s .genTimeout).queue, x.act = .initVessel s.genI) ↔
      s.berthWait.length < cfg.numBerths) ∧
    (s.berthWait.length < cfg.numBerths →
      (handle cfg draws s .genTimeout).containers s.genI = (cfg.containersPerVessel : ℤ) ∧
      ∃ x ∈ (handle cfg draws s .genTimeout).queue,
        x.act = .initVessel s.genI ∧ x.time = s.now ∧ x.prio = 0) ∧
    (¬s.berthWait.length < cfg.numBerths →
      (handle cfg draws s .genTimeout).containers = s.containers) ∧
    (s.genI < cfg.numVessel →
      ∃ x ∈ (handle cfg draws s .genTimeout).queue,
        x.act = .genTimeout ∧ x.time = s.now + draws s.genI) ∧
    (¬s.genI < cfg.numVessel →
      ∃ x ∈ (handle cfg draws s .genTimeout).queue, x.act = .genDone) ∧
    (handle cfg draws s .genTimeout).genI = s.genI + 1 := by
  by_cases hsp : s.berthWait.length < cfg.numBerths <;>
    by_cases hlt : s.genI < cfg.numVessel <;>
      simp only [handle, hsp, hlt, if_true, if_false] <;>
        refine ⟨?_, ?_, ?_, ?_, ?_, rfl⟩
  · exact ⟨fun _ => trivial, fun _ =>
      ⟨⟨s.now + 0, 0, s.nextSeq, .initVessel s.genI⟩,
        mem_insertEv.mpr (Or.inr (mem_insertEv.mpr (Or.inl rfl))), rfl⟩⟩
  · intro _
    constructor
    · show (if s.genI = s.genI then (cfg.containersPerVessel : ℤ) else _) = _
      rw [if_pos rfl]
    · exact ⟨⟨s.now + 0, 0, s.nextSeq, .initVessel s.genI⟩,
        mem_insertEv.mpr (Or.inr (mem_insertEv.mpr (Or.inl rfl))), rfl, add_zero _, rfl⟩
  · intro hc
    exact absurd trivial hc
  · intro _
    exact ⟨⟨s.now + draws s.genI, 1, s.nextSeq + 1, .genTimeout⟩,
      mem_insertEv.mpr (Or.inl rfl), rfl, rfl⟩
  · intro hc
    exact absurd trivial hc
  · exact ⟨fun _ => trivial, fun _ =>
      ⟨⟨s.now + 0, 0, s.nextSeq, .initVessel s.genI⟩,
        mem_insertEv.mpr (Or.inr (mem_insertEv.mpr (Or.inl rfl))), rfl⟩⟩
  · intro _
    constructor
    · show (if s.genI = s.genI then (cfg.containersPerVessel : ℤ) else _) = _
      rw [if_pos rfl]
    · exact ⟨⟨s.now + 0, 0, s.nextSeq, .initVessel s.genI⟩,
        mem_insertEv.mpr (Or.inr (mem_insertEv.mpr (Or.inl rfl))), rfl, add_zero _, rfl⟩
  · intro hc
    exact absurd trivial hc
  · intro hc
    exact hc.elim
  · intro _
    exact ⟨⟨s.now + 0, 1, s.nextSeq + 1, .genDone⟩, mem_insertEv.mpr (Or.inl rfl), rfl⟩
  · constructor
    · rintro ⟨x, hx, hxa⟩
      rcases mem_insertEv.mp hx with rfl | hx2
      · cases hxa
      · exact absurd hxa (hfresh x hx2)
    · intro hc
      exact hc.elim
  · intro hc
    exact hc.elim
  · intro _
    rfl
  · intro _
    exact ⟨⟨s.now + draws s.genI, 1, s.nextSeq, .genTimeout⟩,
      mem_insertEv.mpr (Or.inl rfl), rfl, rfl⟩
  · intro hc
    exact absurd trivial hc
  · constructor
    · rintro ⟨x, hx, hxa⟩
      rcases mem_insertEv.mp hx with rfl | hx2
      · cases hxa
      · exact absurd hxa (hfresh x hx2)
    · intro hc
      exact hc.elim
  · intro hc
    exact hc.elim
  · intro _
    rfl
  · intro hc
    exact hc.elim
  · intro _
    exact ⟨⟨s.now + 0, 1, s.nextSeq, .genDone⟩, mem_insertEv.mpr (Or.inl rfl), rfl⟩

theorem claim_C6_generator_witness :
    busyTerminal.berthUsers.length = defaultConfig.numBerths ∧
    busyTerminal.berthWait = [] ∧
    (∃ x ∈ (handle defaultConfig drawsZero busyTerminal .genTimeout).queue,
      x.act = .initVessel busyTerminal.genI) :=
  ⟨by decide, by decide,
   (claim_C6_generator defaultConfig drawsZero busyTerminal (by decide)).1.mpr (by decide)⟩

/-- C7: the model is a pure function of the configuration and the draw stream
(the program's only other input, the random seed, determines the draw stream):
two runs with the same configuration and the same draws produce identical
logs — same simulated times, same messages, same order. -/
theorem claim_C7_deterministic (cfg1 cfg2 : Config) (d1 d2 : ℕ → Time) (n : ℕ)
    (hcfg : cfg1 = cfg2) (hd : ∀ i, d1 i = d2 i) :
    (run cfg1 d1 n).log = (run cfg2 d2 n).log := by
  subst hcfg
  have hdd : d1 = d2 := funext hd
  subst hdd
  rfl

theorem claim_C7_deterministic_witness :
    (run defaultConfig drawsZero 25).log = (run defaultConfig drawsZero 25).log :=
  claim_C7_deterministic defaultConfig defaultConfig drawsZero drawsZero 25 rfl
    (fun _ => rfl)

theorem triggerPut_err (cfg : Config) (t : Sim) : (triggerPut cfg t).err = t.err := by
  unfold triggerPut
  split
  · rfl
  · split
    · rfl
    · rfl

theorem berthRequest_err (cfg : Config) (t : Sim) (v : ℕ) :
    (berthRequest cfg t v).err = t.err := by
  unfold berthRequest
  rw [triggerPut_err]

/-- A step never reaches the empty-pool `IndexError` when there are at least
as many cranes as berths: at a berth grant the resumed vessel holds a berth
but no crane yet, every crane holder holds a berth, so strictly fewer than
`numBerths ≤ numQuayCranes` cranes are out of the pool. -/
theorem step_err_false {cfg : Config} {draws : ℕ → Time} {s : Sim} (hI : Inv cfg s)
    (hcb : cfg.numBerths ≤ cfg.numQuayCranes) (he : s.err = false) :
    (step cfg draws s).err = false := by
  unfold step
  split
  · exact he
  split
  · exact he
  next e rest heq =>
  split
  · have hme : e ∈ s.queue := by rw [heq]; exact List.mem_cons_self _ _
    cases hae : e.act with
    | initGen =>
        simp only [handle]
        split <;> exact he
    | genTimeout =>
        simp only [handle]
        split <;> split <;> exact he
    | genDone => exact he
    | initVessel v =>
        simp only [handle]
        rw [berthRequest_err]
        exact he
    | berthReady v =>
        simp only [handle]
        split
        · next hpool =>
          exfalso
          obtain ⟨hvu, hvk, _, _, _⟩ := hI.evBerthReady e hme v hae
          have hp : s.cranePool = [] := hpool
          have hsub : s.holding.map Prod.fst ⊆ s.berthUsers.erase v := by
            intro w hw
            have hwu := hI.keysSub w hw
            have hwv : w ≠ v := fun hc => hvk (hc ▸ hw)
            exact (List.mem_erase_of_ne hwv).mpr hwu
          have hlen : (s.holding.map Prod.fst).length ≤ (s.berthUsers.erase v).length :=
            (List.subperm_of_subset hI.keysNodup hsub).length_le
          have hev : (s.berthUsers.erase v).length = s.berthUsers.length - 1 :=
            List.length_erase_of_mem hvu
          have hcc := hI.craneCount
          have husers := hI.usersLe
          have h0 : s.cranePool.length = 0 := by rw [hp]; rfl
          have hkeylen : (s.holding.map Prod.fst).length = s.holding.length :=
            List.length_map _ _
          have hu1 : 0 < s.berthUsers.length := List.length_pos_of_mem hvu
          omega
        · split
          · exact he
          · exact he
    | initCrane v => exact he
    | craneTimeout v => exact he
    | craneDone v =>
        simp only [handle]
        split <;> exact he
    | releaseTrigger =>
        show (triggerPut cfg _).err = false
        rw [triggerPut_err]
        exact he
    | vesselDone v => exact he
    | initTransport tr v => exact he
    | transportTimeout tr v => exact he
    | transportDone tr v => exact he
  · exact he

/-- C8: `crane = self.terminal.quay_cranes.pop(0)` has no wait semantics and
raises `IndexError` on an empty pool (second conjunct: the model enters its
error state).  Under the provisioning precondition
`NUM_BERTHS ≤ NUM_QUAY_CRANES` that branch is unreachable: no run ever errors
(first conjunct), because at most `NUM_BERTHS` vessels hold a berth at once
and each crane holder is a berth holder distinct from the vessel being
granted. -/
theorem claim_C8_crane_pool (cfg : Config) (draws : ℕ → Time) (n : ℕ)
    (hcb : cfg.numBerths ≤ cfg.numQuayCranes) :
    (run cfg draws n).err = false ∧
    (∀ (t : Sim) (v : ℕ), t.cranePool = [] →
      (handle cfg draws t (.berthReady v)).err = true) := by
  constructor
  · induction n with
    | zero => rfl
    | succ k ih =>
        rw [run, Function.iterate_succ_apply']
        exact step_err_false (inv_run cfg draws k) hcb ih
  · intro t v hp
    simp only [handle]
    split
    · rfl
    · next c pool hpool =>
      have hcp : ([] : List ℕ) = c :: pool := by rw [← hp]; exact hpool
      cases hcp

theorem claim_C8_crane_pool_witness :
    (run defaultConfig drawsZero 60).err = false ∧
    (handle defaultConfig drawsZero { initSim defaultConfig with cranePool := [] }
      (.berthReady 1)).err = true :=
  ⟨(claim_C8_crane_pool defaultConfig drawsZero 60 (by decide)).1,
   (claim_C8_crane_pool defaultConfig drawsZero 60 (by decide)).2
     { initSim defaultConfig with cranePool := [] } 1 rfl⟩

/-- C9: trucks never run.  In every reachable state of every run, no log line
is a truck message and no pending event belongs to `Truck.transport_container`
(so the transport step is never started by any live control path). -/
theorem claim_C9_trucks_never_run (cfg : Config) (draws : ℕ → Time) (n : ℕ) :
    (∀ p ∈ (run cfg draws n).log, ∀ tr v,
      p.2 ≠ Msg.truckStart tr v ∧ p.2 ≠ Msg.truckDeliver tr v) ∧
    (∀ x ∈ (run cfg draws n).queue, ∀ tr v,
      x.act ≠ Act.initTransport tr v ∧ x.act ≠ Act.transportTimeout tr v ∧
      x.act ≠ Act.transportDone tr v) :=
  ⟨(inv_run cfg draws n).noTruckLog, (inv_run cfg draws n).noTransport⟩

theorem claim_C9_trucks_never_run_witness :
    (((0 : ℤ), Msg.arrives 1) : Time × Msg).2 ≠ Msg.truckStart 1 1 :=
  ((claim_C9_trucks_never_run defaultConfig drawsZero 5).1 ((0 : ℤ), Msg.arrives 1)
    (by decide) 1 1).1

/-- C10 (counterexample): with the scenario of `cfg5` but horizon 5, vessel 1
is granted its berth at time 0 and acquires the crane (both logged), yet the
run is a fixed point after 12 steps with no departure line at any time — the
departure at `t + 3·3 = 9` never occurs because the scheduler stops at the
horizon first.  So the claim as stated (the departure log always occurs at
`t + CONTAINERS_PER_VESSEL · CRANE_CONTAINER_TIME`) is false. -/
theorem claim_C10_counterexample :
    ((0 : ℤ), Msg.berths 1) ∈ (run cfgShortHorizon drawsZero 12).log ∧
    ((0 : ℤ), Msg.craneStart 1 1) ∈ (run cfgShortHorizon drawsZero 12).log ∧
    ((run cfgShortHorizon drawsZero 12).log.all
      (fun p => !(p.2 == Msg.leaves 1))) = true ∧
    run cfgShortHorizon drawsZero 13 = run cfgShortHorizon drawsZero 12 :=
  ⟨by decide, by decide, by decide, rfl⟩

/-- C10 (amended): whenever both the berthing line of vessel `v` (at time
`t₁`) and its departure line (at time `t₂`) appear in a run's log, then
`t₂ = t₁ + CONTAINERS_PER_VESSEL · CRANE_CONTAINER_TIME`: crane acquisition,
crane return, berth release and the departure log consume zero simulated
time.  (Occurrence of the departure itself is not guaranteed: the horizon may
cut the run first, as the counterexample shows.) -/
theorem claim_C10_departure_time (cfg : Config) (draws : ℕ → Time) (n : ℕ) (v : ℕ)
    (t1 t2 : Time)
    (hb : (t1, Msg.berths v) ∈ (run cfg draws n).log)
    (hl : (t2, Msg.leaves v) ∈ (run cfg draws n).log) :
    t2 = t1 + (cfg.containersPerVessel : ℤ) * cfg.craneContainerTime := by
  have hI := inv_run cfg draws n
  have h1 : t1 = (run cfg draws n).berthAt v := hI.logBerths (t1, Msg.berths v) hb v rfl
  have h2 := (hI.logLeaves (t2, Msg.leaves v) hl v rfl).2
  rw [h1]
  exact h2

theorem claim_C10_departure_time_witness :
    (9 : ℤ) = 0 + (cfg5.containersPerVessel : ℤ) * cfg5.craneContainerTime :=
  claim_C10_departure_time cfg5 drawsZero 16 1 0 9 (by decide) (by decide)

end Shipment
